import Mathlib

/-!
Shallow embedding of `blender/armutils.py` (armory add-on utility module)
and proofs of its specified properties.

Python `str` values that are processed character by character are modelled
as `List Char`; path strings that are only concatenated or compared are
modelled as `String`. Python floats are modelled as `ℚ` (exact arithmetic;
the module only multiplies, divides and truncates). Python `int` is `ℤ`.
-/

namespace Armutils

/-- Python `int(q)` on a real number: truncation toward zero. -/
def pyInt (q : ℚ) : ℤ := if 0 ≤ q then ⌊q⌋ else ⌈q⌉

/-! ## Color conversion (`to_hex`, `color_to_int`)

Source:
```
def to_hex(val):
    return '#%02x%02x%02x%02x' % (int(val[3] * 255), int(val[0] * 255),
                                  int(val[1] * 255), int(val[2] * 255))

def color_to_int(val):
    return (int(val[3] * 255) << 24) + (int(val[0] * 255) << 16) + \
           (int(val[1] * 255) << 8) + int(val[2] * 255)
```
`val` is a 4-component color `(r, g, b, a)`; components are floats.
-/

/-- The channel byte `int(c * 255)` computed by both conversions. -/
def colorByte (c : ℚ) : ℤ := pyInt (c * 255)

/-- Source `color_to_int(val)`: packs the four channel bytes, alpha first. -/
def color_to_int (r g b a : ℚ) : ℤ :=
  colorByte a * 2 ^ 24 + colorByte r * 2 ^ 16 + colorByte g * 2 ^ 8 + colorByte b

/-- Lowercase hex digit character for `d < 16`, as `'%x'` renders one digit. -/
def hexDigitChar (d : ℕ) : Char :=
  if d < 10 then Char.ofNat (48 + d) else Char.ofNat (87 + d)

/-- Hex rendering of a natural number, most significant digit first
(empty for `0`, as `Nat.digits`). -/
def hexNat (n : ℕ) : List Char := ((Nat.digits 16 n).map hexDigitChar).reverse

/-- Hex rendering of a natural number with at least one digit (`'%x'`). -/
def hexMin1 (n : ℕ) : List Char := if n = 0 then ['0'] else hexNat n

/-- Left-pad with `'0'` to width `w`. -/
def padZero (w : ℕ) (cs : List Char) : List Char :=
  List.replicate (w - cs.length) '0' ++ cs

/-- Python `'%02x' % n`: minimum-width-2 lowercase hex, sign included for
negative arguments. -/
def pyHex02 (n : ℤ) : List Char :=
  if n < 0 then padZero 2 ('-' :: hexMin1 n.natAbs) else padZero 2 (hexMin1 n.toNat)

/-- Source `to_hex(val)`: `'#'` followed by the four channel bytes in hex,
alpha first. -/
def to_hex (r g b a : ℚ) : List Char :=
  '#' :: (pyHex02 (colorByte a) ++ pyHex02 (colorByte r) ++
    pyHex02 (colorByte g) ++ pyHex02 (colorByte b))

/-- Decoder for the packed integer: extracts the four bytes
(bits 24-31, 16-23, 8-15, 0-7). -/
def colorIntDecode (n : ℤ) : ℤ × ℤ × ℤ × ℤ :=
  (n / 2 ^ 24 % 256, n / 2 ^ 16 % 256, n / 2 ^ 8 % 256, n % 256)

/-- Value of one lowercase hex digit character. -/
def hexDigitVal (c : Char) : ℕ :=
  if 97 ≤ c.toNat then c.toNat - 87 else c.toNat - 48

/-- Value of a two-digit hex pair. -/
def hexPairVal (c1 c2 : Char) : ℕ := 16 * hexDigitVal c1 + hexDigitVal c2

/-- Decoder for the `'#AARRGGBB'` string: the four bytes in emitted order. -/
def hexColorDecode (cs : List Char) : Option (ℕ × ℕ × ℕ × ℕ) :=
  match cs with
  | '#' :: c1 :: c2 :: c3 :: c4 :: c5 :: c6 :: c7 :: c8 :: [] =>
    some (hexPairVal c1 c2, hexPairVal c3 c4, hexPairVal c5 c6, hexPairVal c7 c8)
  | _ => none

lemma pyInt_of_nonneg {q : ℚ} (h : 0 ≤ q) : pyInt q = ⌊q⌋ := by
  simp [pyInt, h]

lemma colorByte_eq_floor {c : ℚ} (h : 0 ≤ c) : colorByte c = ⌊c * 255⌋ := by
  have : (0:ℚ) ≤ c * 255 := by positivity
  simp [colorByte, pyInt_of_nonneg this]

lemma colorByte_nonneg {c : ℚ} (h : 0 ≤ c) : 0 ≤ colorByte c := by
  rw [colorByte_eq_floor h]
  exact Int.floor_nonneg.mpr (by positivity)

lemma colorByte_le {c : ℚ} (h0 : 0 ≤ c) (h1 : c ≤ 1) : colorByte c ≤ 255 := by
  rw [colorByte_eq_floor h0]
  have : c * 255 ≤ (255 : ℚ) := by nlinarith
  calc ⌊c * 255⌋ ≤ ⌊(255 : ℚ)⌋ := Int.floor_le_floor this
    _ = 255 := by norm_num

lemma hexDigitVal_hexDigitChar {d : ℕ} (h : d < 16) :
    hexDigitVal (hexDigitChar d) = d := by
  interval_cases d <;> decide

lemma hexDigitChar_zero : hexDigitChar 0 = '0' := by decide

lemma pyHex02_eq {n : ℤ} (h0 : 0 ≤ n) (h256 : n < 256) :
    pyHex02 n = [hexDigitChar (n.toNat / 16), hexDigitChar (n.toNat % 16)] := by
  have hn : ¬ n < 0 := by omega
  obtain ⟨m, rfl⟩ : ∃ m : ℕ, n = (m : ℤ) := ⟨n.toNat, (Int.toNat_of_nonneg h0).symm⟩
  rw [pyHex02, if_neg hn, Int.toNat_natCast]
  have hm256 : m < 256 := by omega
  rcases Nat.eq_zero_or_pos m with rfl | hpos
  · decide
  have hne : m ≠ 0 := by omega
  rcases Nat.lt_or_ge m 16 with h16 | h16
  · have hm0 : m / 16 = 0 := Nat.div_eq_of_lt h16
    have hmm : m % 16 = m := Nat.mod_eq_of_lt h16
    have hd : Nat.digits 16 m = [m] := by
      rw [Nat.digits_def' (by norm_num : 1 < 16) hpos, hm0, hmm]
      simp
    simp [hexMin1, hexNat, hd, hne, padZero, hm0, hmm, hexDigitChar_zero]
  · have hq : 0 < m / 16 := Nat.div_pos h16 (by norm_num)
    have hqlt : m / 16 < 16 := by omega
    have hd : Nat.digits 16 m = [m % 16, m / 16] := by
      rw [Nat.digits_def' (by norm_num : 1 < 16) hpos,
        Nat.digits_def' (by norm_num : 1 < 16) hq]
      have h0' : m / 16 / 16 = 0 := Nat.div_eq_of_lt hqlt
      rw [h0', Nat.mod_eq_of_lt hqlt]
      simp
    simp [hexMin1, hexNat, hd, hne, padZero]

/-- C1: encoding a color whose components lie in [0,1] with `color_to_int`
(resp. `to_hex`) and decoding the packed integer (resp. hex string) back
into four bytes recovers exactly the four channel byte values
`int(c*255)` computed during encoding. -/
theorem color_conversion_roundtrip (r g b a : ℚ)
    (hr0 : 0 ≤ r) (hr1 : r ≤ 1) (hg0 : 0 ≤ g) (hg1 : g ≤ 1)
    (hb0 : 0 ≤ b) (hb1 : b ≤ 1) (ha0 : 0 ≤ a) (ha1 : a ≤ 1) :
    colorIntDecode (color_to_int r g b a) =
      (colorByte a, colorByte r, colorByte g, colorByte b) ∧
    hexColorDecode (to_hex r g b a) =
      some ((colorByte a).toNat, (colorByte r).toNat,
            (colorByte g).toNat, (colorByte b).toNat) := by
  have hA0 := colorByte_nonneg ha0
  have hA1 := colorByte_le ha0 ha1
  have hR0 := colorByte_nonneg hr0
  have hR1 := colorByte_le hr0 hr1
  have hG0 := colorByte_nonneg hg0
  have hG1 := colorByte_le hg0 hg1
  have hB0 := colorByte_nonneg hb0
  have hB1 := colorByte_le hb0 hb1
  constructor
  · simp only [colorIntDecode, color_to_int, Prod.mk.injEq]
    refine ⟨?_, ?_, ?_, ?_⟩ <;> omega
  · rw [to_hex, pyHex02_eq hA0 (by omega), pyHex02_eq hR0 (by omega),
      pyHex02_eq hG0 (by omega), pyHex02_eq hB0 (by omega)]
    simp only [List.cons_append, List.nil_append, hexColorDecode]
    have key : ∀ m : ℕ, m < 256 →
        hexPairVal (hexDigitChar (m / 16)) (hexDigitChar (m % 16)) = m := by
      intro m hm
      rw [hexPairVal, hexDigitVal_hexDigitChar (by omega),
        hexDigitVal_hexDigitChar (by omega)]
      omega
    rw [key _ (by omega), key _ (by omega), key _ (by omega), key _ (by omega)]

/-- Witness for C1 at the concrete color (0.25, 0.5, 0.75, 1). -/
theorem color_conversion_roundtrip_witness :
    colorIntDecode (color_to_int (1/4) (1/2) (3/4) 1) =
      (colorByte 1, colorByte (1/4), colorByte (1/2), colorByte (3/4)) ∧
    hexColorDecode (to_hex (1/4) (1/2) (3/4) 1) =
      some ((colorByte 1).toNat, (colorByte (1/4)).toNat,
            (colorByte (1/2)).toNat, (colorByte (3/4)).toNat) :=
  color_conversion_roundtrip (1/4) (1/2) (3/4) 1
    (by norm_num) (by norm_num) (by norm_num) (by norm_num)
    (by norm_num) (by norm_num) (by norm_num) (by norm_num)

/-- C5: `to_hex` emits the hex digits alpha-first (`'#AARRGGBB'`), and
`color_to_int` places alpha in bits 24-31, red in bits 16-23, green in
bits 8-15 and blue in bits 0-7. -/
theorem alpha_first_channel_order (r g b a : ℚ)
    (hr0 : 0 ≤ r) (hr1 : r ≤ 1) (hg0 : 0 ≤ g) (hg1 : g ≤ 1)
    (hb0 : 0 ≤ b) (hb1 : b ≤ 1) (ha0 : 0 ≤ a) (ha1 : a ≤ 1) :
    to_hex r g b a =
      '#' :: [hexDigitChar ((colorByte a).toNat / 16),
              hexDigitChar ((colorByte a).toNat % 16),
              hexDigitChar ((colorByte r).toNat / 16),
              hexDigitChar ((colorByte r).toNat % 16),
              hexDigitChar ((colorByte g).toNat / 16),
              hexDigitChar ((colorByte g).toNat % 16),
              hexDigitChar ((colorByte b).toNat / 16),
              hexDigitChar ((colorByte b).toNat % 16)] ∧
    color_to_int r g b a / 2 ^ 24 % 2 ^ 8 = colorByte a ∧
    color_to_int r g b a / 2 ^ 16 % 2 ^ 8 = colorByte r ∧
    color_to_int r g b a / 2 ^ 8 % 2 ^ 8 = colorByte g ∧
    color_to_int r g b a % 2 ^ 8 = colorByte b := by
  have hA0 := colorByte_nonneg ha0
  have hA1 := colorByte_le ha0 ha1
  have hR0 := colorByte_nonneg hr0
  have hR1 := colorByte_le hr0 hr1
  have hG0 := colorByte_nonneg hg0
  have hG1 := colorByte_le hg0 hg1
  have hB0 := colorByte_nonneg hb0
  have hB1 := colorByte_le hb0 hb1
  refine ⟨?_, ?_, ?_, ?_, ?_⟩
  · rw [to_hex, pyHex02_eq hA0 (by omega), pyHex02_eq hR0 (by omega),
      pyHex02_eq hG0 (by omega), pyHex02_eq hB0 (by omega)]
    simp
  all_goals (simp only [color_to_int]; omega)

/-- Witness for C5 at the concrete color (0, 1, 0.5, 1). -/
theorem alpha_first_channel_order_witness :
    to_hex 0 1 (1/2) 1 =
      '#' :: [hexDigitChar ((colorByte 1).toNat / 16),
              hexDigitChar ((colorByte 1).toNat % 16),
              hexDigitChar ((colorByte 0).toNat / 16),
              hexDigitChar ((colorByte 0).toNat % 16),
              hexDigitChar ((colorByte 1).toNat / 16),
              hexDigitChar ((colorByte 1).toNat % 16),
              hexDigitChar ((colorByte (1/2)).toNat / 16),
              hexDigitChar ((colorByte (1/2)).toNat % 16)] ∧
    color_to_int 0 1 (1/2) 1 / 2 ^ 24 % 2 ^ 8 = colorByte 1 ∧
    color_to_int 0 1 (1/2) 1 / 2 ^ 16 % 2 ^ 8 = colorByte 0 ∧
    color_to_int 0 1 (1/2) 1 / 2 ^ 8 % 2 ^ 8 = colorByte 1 ∧
    color_to_int 0 1 (1/2) 1 % 2 ^ 8 = colorByte (1/2) :=
  alpha_first_channel_order 0 1 (1/2) 1
    (by norm_num) (by norm_num) (by norm_num) (by norm_num)
    (by norm_num) (by norm_num) (by norm_num) (by norm_num)

/-! ## Render resolution (`get_render_resolution`)

Source:
```
def get_render_resolution(scene_index=0):
    render = bpy.data.scenes[scene_index].render
    scale = render.resolution_percentage / 100
    return int(render.resolution_x * scale), int(render.resolution_y * scale)
```
The scene's `resolution_x`, `resolution_y` and `resolution_percentage`
are non-negative integers; `/` is Python 3 true division.
-/

/-- Source `get_render_resolution`, as a function of the scene's base resolution
and percentage. -/
def get_render_resolution (rx ry percentage : ℕ) : ℤ × ℤ :=
  (pyInt ((rx : ℚ) * ((percentage : ℚ) / 100)),
   pyInt ((ry : ℚ) * ((percentage : ℚ) / 100)))

lemma floor_natCast_div_two (n : ℕ) : ⌊(n : ℚ) / 2⌋ = ((n / 2 : ℕ) : ℤ) := by
  rw [Int.floor_eq_iff]
  constructor
  · rw [le_div_iff₀ (by norm_num : (0:ℚ) < 2)]
    exact_mod_cast (show (n / 2 : ℕ) * 2 ≤ n by omega)
  · rw [div_lt_iff₀ (by norm_num : (0:ℚ) < 2)]
    exact_mod_cast (show (n : ℕ) < (n / 2 + 1) * 2 by omega)

/-- C2: `get_render_resolution` with percentage 100 returns the base
resolution unchanged; with percentage 50 it returns the floor of half the
base resolution; in general it multiplies the base resolution by the
percentage scale and truncates (floors, the values being non-negative). -/
theorem get_render_resolution_spec (rx ry : ℕ) :
    get_render_resolution rx ry 100 = ((rx : ℤ), (ry : ℤ)) ∧
    get_render_resolution rx ry 50 = (((rx / 2 : ℕ) : ℤ), ((ry / 2 : ℕ) : ℤ)) ∧
    ∀ p : ℕ, get_render_resolution rx ry p =
      (⌊(rx : ℚ) * p / 100⌋, ⌊(ry : ℚ) * p / 100⌋) := by
  have gen : ∀ (m p : ℕ), pyInt ((m : ℚ) * ((p : ℚ) / 100)) = ⌊(m : ℚ) * p / 100⌋ := by
    intro m p
    rw [pyInt_of_nonneg (by positivity)]
    ring_nf
  refine ⟨?_, ?_, ?_⟩
  · simp only [get_render_resolution, Prod.mk.injEq]
    constructor <;>
    · rw [pyInt_of_nonneg (by positivity)]
      norm_num
  · simp only [get_render_resolution, Prod.mk.injEq]
    constructor <;>
    · rw [pyInt_of_nonneg (by positivity)]
      have h50 : ((50 : ℕ) : ℚ) / 100 = 1 / 2 := by norm_num
      rw [h50]
      rw [show ∀ m : ℕ, (m : ℚ) * (1 / 2) = (m : ℚ) / 2 from fun m => by ring]
      exact floor_natCast_div_two _
  · intro p
    simp only [get_render_resolution, Prod.mk.injEq]
    exact ⟨gen rx p, gen ry p⟩

/-! ## Path helpers (`safe_assetpath`, `extract_filename`, `safe_filename`,
`get_fp`)

Source:
```
def safe_assetpath(s):
    return s[2:] # Remove leading '//'

def extract_filename(s):
    return s.rsplit('/', 1)[1]

def get_fp():
    s = bpy.data.filepath.split(os.path.sep)
    s.pop()
    return os.path.sep.join(s)
```
-/

/-- Source `safe_assetpath(s)`: Python slice `s[2:]`, dropping the first two
characters. -/
def safe_assetpath (s : List Char) : List Char := s.drop 2

/-- Python `s.rsplit(sep, 1)`: split at the last occurrence of `sep`;
the whole string when `sep` does not occur. -/
def rsplit1 (sep : Char) (s : List Char) : List (List Char) :=
  if sep ∈ s then
    [((s.reverse.dropWhile (fun c => c != sep)).drop 1).reverse,
     (s.reverse.takeWhile (fun c => c != sep)).reverse]
  else [s]

/-- Source `extract_filename(s)`: `s.rsplit('/', 1)[1]`, `none` when the index
access raises. -/
def extract_filename (s : List Char) : Option (List Char) :=
  (rsplit1 '/' s)[1]?

/-- C6: for every string beginning with the two-character prefix `//`,
`safe_assetpath` returns exactly the remainder after the prefix. -/
theorem safe_assetpath_strips (s : List Char)
    (h : s.take 2 = ['/', '/']) :
    '/' :: '/' :: safe_assetpath s = s := by
  match s, h with
  | c1 :: c2 :: t, h =>
    simp only [List.take, List.cons.injEq] at h
    obtain ⟨h1, h2, -⟩ := h
    subst h1; subst h2
    rfl

/-- Witness for C6 at the concrete string `"//ab"`. -/
theorem safe_assetpath_strips_witness :
    '/' :: '/' :: safe_assetpath ['/', '/', 'a', 'b'] = ['/', '/', 'a', 'b'] :=
  safe_assetpath_strips ['/', '/', 'a', 'b'] (by decide)

lemma dropWhile_ne_of_mem {sep : Char} :
    ∀ l : List Char, sep ∈ l →
      ∃ t, l.dropWhile (fun c => c != sep) = sep :: t := by
  intro l hl
  induction l with
  | nil => cases hl
  | cons c r ih =>
    by_cases hc : c = sep
    · subst hc
      exact ⟨r, by simp [List.dropWhile]⟩
    · have hr : sep ∈ r := by
        rcases List.mem_cons.mp hl with h | h
        · exact absurd h.symm hc
        · exact h
      obtain ⟨t, ht⟩ := ih hr
      refine ⟨t, ?_⟩
      rw [List.dropWhile_cons]
      simp only [bne_iff_ne, ne_eq, hc, not_false_eq_true, if_true]
      exact ht

/-- C10: `extract_filename` returns the substring strictly after the last
`'/'` when one occurs, and fails (the `[1]` access is out of range) when
the string contains no `'/'`. -/
theorem extract_filename_spec (s : List Char) :
    ('/' ∈ s → ∃ pre post, s = pre ++ '/' :: post ∧ '/' ∉ post ∧
      extract_filename s = some post) ∧
    ('/' ∉ s → extract_filename s = none) := by
  constructor
  · intro hmem
    have hmemr : '/' ∈ s.reverse := List.mem_reverse.mpr hmem
    obtain ⟨t, ht⟩ := dropWhile_ne_of_mem s.reverse hmemr
    have hsr : s.reverse = s.reverse.takeWhile (fun c => c != '/') ++ '/' :: t := by
      conv_lhs =>
        rw [← List.takeWhile_append_dropWhile (p := fun c => c != '/')
          (l := s.reverse), ht]
    refine ⟨t.reverse, (s.reverse.takeWhile (fun c => c != '/')).reverse, ?_, ?_, ?_⟩
    · have h2 := congrArg List.reverse hsr
      simpa using h2
    · intro hpost
      rw [List.mem_reverse] at hpost
      have := List.mem_takeWhile_imp hpost
      simp at this
    · rw [extract_filename, rsplit1, if_pos hmem, ht]
      simp
  · intro hmem
    rw [extract_filename, rsplit1, if_neg hmem]
    rfl

/-- Witness for C10 at `"a/b"` (slash present) and `"ab"` (no slash). -/
theorem extract_filename_spec_witness :
    (∃ pre post, ['a', '/', 'b'] = pre ++ '/' :: post ∧ '/' ∉ post ∧
      extract_filename ['a', '/', 'b'] = some post) ∧
    extract_filename ['a', 'b'] = none :=
  ⟨(extract_filename_spec ['a', '/', 'b']).1 (by decide),
   (extract_filename_spec ['a', 'b']).2 (by decide)⟩

/-! ## Serialized values (`write_arm` and its two encodings)

Source:
```
def write_arm(filepath, output):
    if filepath.endswith('.zip'):
        with zipfile.ZipFile(filepath, 'w', zipfile.ZIP_DEFLATED) as zip_file:
            if bpy.data.worlds['Arm'].arm_minimize:
                zip_file.writestr('data.arm', lib.umsgpack.dumps(output))
            else:
                zip_file.writestr('data.arm', json.dumps(output, sort_keys=True, indent=4))
    else:
        if bpy.data.worlds['Arm'].arm_minimize:
            with open(filepath, 'wb') as f:
                f.write(lib.umsgpack.dumps(output))
        else:
            with open(filepath, 'w') as f:
                f.write(json.dumps(output, sort_keys=True, indent=4))
```
`output` is a nested mapping built from strings, integers, booleans,
`None`, lists and string-keyed dicts.
-/

/-- A serializable value: the nested mappings `write_arm` receives. -/
inductive AVal where
  | null : AVal
  | boolean : Bool → AVal
  | int : ℤ → AVal
  | str : String → AVal
  | arr : List AVal → AVal
  | map : List (String × AVal) → AVal

/-! ### Binary encoding

Modelled from the spec: the bodies of `lib.umsgpack.dumps` and its
decoder are not part of this unit (`lib/umsgpack` is a vendored library
outside `src/`); the spec describes the encoding only as "a compact
binary encoding". It is modelled as a tagged, prefix-free byte encoding:
one tag byte per value, sequences element-prefixed with `1` and
terminated by `0`, naturals as base-256 digit sequences, characters as
four little-endian bytes. -/

/-- Encode a base-256 digit list as a terminated byte sequence. -/
def natSeqEnc : List ℕ → List ℕ
  | [] => [0]
  | d :: ds => 1 :: d :: natSeqEnc ds

/-- Encode a natural number via its base-256 digits. -/
def natEnc (n : ℕ) : List ℕ := natSeqEnc (Nat.digits 256 n)

/-- Encode one character as four little-endian base-256 bytes. -/
def charEnc (c : Char) : List ℕ :=
  [c.toNat % 256, c.toNat / 256 % 256, c.toNat / 256 ^ 2 % 256, c.toNat / 256 ^ 3]

/-- Encode a character list as a terminated sequence. -/
def charSeqEnc : List Char → List ℕ
  | [] => [0]
  | c :: cs => 1 :: charEnc c ++ charSeqEnc cs

/-- Encode a string. -/
def strEnc (s : String) : List ℕ := charSeqEnc s.data

/-- Encode an integer: sign byte then magnitude. -/
def intEnc (n : ℤ) : List ℕ := (if n < 0 then 1 else 0) :: natEnc n.natAbs

mutual
/-- Encoder `lib.umsgpack.dumps` (modelled from the spec): the compact binary
encoding of a value. Tags: 0 null, 1 bool, 2 int, 3 str, 4 list, 5 map. -/
def dumpsB : AVal → List ℕ
  | .null => [0]
  | .boolean b => [1, if b then 1 else 0]
  | .int n => 2 :: intEnc n
  | .str s => 3 :: strEnc s
  | .arr xs => 4 :: dumpsBList xs
  | .map kvs => 5 :: dumpsBPairs kvs

def dumpsBList : List AVal → List ℕ
  | [] => [0]
  | v :: vs => 1 :: dumpsB v ++ dumpsBList vs

def dumpsBPairs : List (String × AVal) → List ℕ
  | [] => [0]
  | (k, v) :: kvs => 1 :: strEnc k ++ dumpsB v ++ dumpsBPairs kvs
end

/-- Decode a terminated base-256 digit sequence. -/
def natSeqDec : List ℕ → Option (List ℕ × List ℕ)
  | [] => none
  | b :: rest =>
    if b = 0 then some ([], rest)
    else if b = 1 then
      match rest with
      | [] => none
      | d :: rest2 => (natSeqDec rest2).map (fun p => (d :: p.1, p.2))
    else none

/-- Decode a terminated character sequence. -/
def charSeqDec : List ℕ → Option (List Char × List ℕ)
  | [] => none
  | b :: rest =>
    if b = 0 then some ([], rest)
    else if b = 1 then
      match rest with
      | b0 :: b1 :: b2 :: b3 :: rest2 =>
        (charSeqDec rest2).map
          (fun p => (Char.ofNat (b0 + 256 * (b1 + 256 * (b2 + 256 * b3))) :: p.1, p.2))
      | _ => none
    else none

mutual
/-- The binary decoder corresponding to `lib.umsgpack.dumps` (modelled
from the spec), fuel-indexed. -/
def loadsBF : ℕ → List ℕ → Option (AVal × List ℕ)
  | 0, _ => none
  | fuel + 1, input =>
    match input with
    | [] => none
    | tag :: rest =>
      if tag = 0 then some (.null, rest)
      else if tag = 1 then
        match rest with
        | [] => none
        | b :: r =>
          if b = 0 then some (.boolean false, r)
          else if b = 1 then some (.boolean true, r)
          else none
      else if tag = 2 then
        match rest with
        | [] => none
        | sg :: r =>
          (natSeqDec r).map (fun p =>
            (.int (if sg = 1 then -(((Nat.ofDigits 256 p.1 : ℕ)) : ℤ)
                   else (((Nat.ofDigits 256 p.1 : ℕ)) : ℤ)), p.2))
      else if tag = 3 then
        (charSeqDec rest).map (fun p => (.str ⟨p.1⟩, p.2))
      else if tag = 4 then
        (loadsBFList fuel rest).map (fun p => (.arr p.1, p.2))
      else if tag = 5 then
        (loadsBFPairs fuel rest).map (fun p => (.map p.1, p.2))
      else none

/-- Decoder for a terminated sequence of values. -/
def loadsBFList : ℕ → List ℕ → Option (List AVal × List ℕ)
  | 0, _ => none
  | fuel + 1, input =>
    match input with
    | [] => none
    | b :: rest =>
      if b = 0 then some ([], rest)
      else if b = 1 then
        (loadsBF fuel rest).bind (fun p =>
          (loadsBFList fuel p.2).map (fun q => (p.1 :: q.1, q.2)))
      else none

/-- Decoder for a terminated sequence of key-value pairs. -/
def loadsBFPairs : ℕ → List ℕ → Option (List (String × AVal) × List ℕ)
  | 0, _ => none
  | fuel + 1, input =>
    match input with
    | [] => none
    | b :: rest =>
      if b = 0 then some ([], rest)
      else if b = 1 then
        (charSeqDec rest).bind (fun p0 =>
          (loadsBF fuel p0.2).bind (fun p =>
            (loadsBFPairs fuel p.2).map (fun q => ((⟨p0.1⟩, p.1) :: q.1, q.2))))
      else none
end

lemma loadsBF_tag0 (f : ℕ) (rest : List ℕ) :
    loadsBF (f + 1) (0 :: rest) = some (.null, rest) := rfl

lemma loadsBF_tag1 (f : ℕ) (b : ℕ) (r : List ℕ) :
    loadsBF (f + 1) (1 :: b :: r) =
      (if b = 0 then some (.boolean false, r)
       else if b = 1 then some (.boolean true, r) else none) := rfl

lemma loadsBF_tag2 (f : ℕ) (sg : ℕ) (r : List ℕ) :
    loadsBF (f + 1) (2 :: sg :: r) =
      (natSeqDec r).map (fun p =>
        (.int (if sg = 1 then -(((Nat.ofDigits 256 p.1 : ℕ)) : ℤ)
               else (((Nat.ofDigits 256 p.1 : ℕ)) : ℤ)), p.2)) := rfl

lemma loadsBF_tag3 (f : ℕ) (rest : List ℕ) :
    loadsBF (f + 1) (3 :: rest) =
      (charSeqDec rest).map (fun p => (AVal.str ⟨p.1⟩, p.2)) := rfl

lemma loadsBF_tag4 (f : ℕ) (rest : List ℕ) :
    loadsBF (f + 1) (4 :: rest) =
      (loadsBFList f rest).map (fun p => (AVal.arr p.1, p.2)) := rfl

lemma loadsBF_tag5 (f : ℕ) (rest : List ℕ) :
    loadsBF (f + 1) (5 :: rest) =
      (loadsBFPairs f rest).map (fun p => (AVal.map p.1, p.2)) := rfl

lemma loadsBFList_b0 (f : ℕ) (rest : List ℕ) :
    loadsBFList (f + 1) (0 :: rest) = some ([], rest) := rfl

lemma loadsBFList_b1 (f : ℕ) (rest : List ℕ) :
    loadsBFList (f + 1) (1 :: rest) =
      (loadsBF f rest).bind (fun p =>
        (loadsBFList f p.2).map (fun q => (p.1 :: q.1, q.2))) := rfl

lemma loadsBFPairs_b0 (f : ℕ) (rest : List ℕ) :
    loadsBFPairs (f + 1) (0 :: rest) = some ([], rest) := rfl

lemma loadsBFPairs_b1 (f : ℕ) (rest : List ℕ) :
    loadsBFPairs (f + 1) (1 :: rest) =
      (charSeqDec rest).bind (fun p0 =>
        (loadsBF f p0.2).bind (fun p =>
          (loadsBFPairs f p.2).map (fun q => ((⟨p0.1⟩, p.1) :: q.1, q.2)))) := rfl

/-- Decoder `lib.umsgpack.loads` (modelled from the spec): decode a byte list. -/
def loadsB (bs : List ℕ) : Option (AVal × List ℕ) := loadsBF (bs.length + 1) bs

lemma natSeqDec_enc (ds : List ℕ) (rest : List ℕ) :
    natSeqDec (natSeqEnc ds ++ rest) = some (ds, rest) := by
  induction ds with
  | nil => simp [natSeqEnc, natSeqDec.eq_def]
  | cons d ds ih => simp [natSeqEnc, natSeqDec, ih]

lemma charDec_charEnc (c : Char) :
    Char.ofNat (c.toNat % 256 + 256 * (c.toNat / 256 % 256 +
      256 * (c.toNat / 256 ^ 2 % 256 + 256 * (c.toNat / 256 ^ 3)))) = c := by
  have h : c.toNat % 256 + 256 * (c.toNat / 256 % 256 +
      256 * (c.toNat / 256 ^ 2 % 256 + 256 * (c.toNat / 256 ^ 3))) = c.toNat := by
    omega
  rw [h, Char.ofNat_toNat]

lemma charSeqDec_enc (cs : List Char) (rest : List ℕ) :
    charSeqDec (charSeqEnc cs ++ rest) = some (cs, rest) := by
  induction cs with
  | nil => simp [charSeqEnc, charSeqDec.eq_def]
  | cons c cs ih =>
    have step : charSeqDec (charSeqEnc (c :: cs) ++ rest) =
        (charSeqDec (charSeqEnc cs ++ rest)).map
          (fun p => (Char.ofNat (c.toNat % 256 + 256 * (c.toNat / 256 % 256 +
            256 * (c.toNat / 256 ^ 2 % 256 + 256 * (c.toNat / 256 ^ 3)))) :: p.1,
            p.2)) := by
      simp only [charSeqEnc, charEnc, List.cons_append, List.append_assoc,
        List.append_eq, List.nil_append, charSeqDec,
        if_neg (by decide : ¬ (1 : ℕ) = 0), if_pos rfl, if_true]
    rw [step, ih, Option.map_some', charDec_charEnc]

lemma dumpsB_length_pos (v : AVal) : 1 ≤ (dumpsB v).length := by
  cases v <;> simp [dumpsB]

lemma dumpsBList_length_pos (vs : List AVal) : 1 ≤ (dumpsBList vs).length := by
  cases vs <;> simp [dumpsBList]

lemma dumpsBPairs_length_pos (kvs : List (String × AVal)) :
    1 ≤ (dumpsBPairs kvs).length := by
  cases kvs with
  | nil => simp [dumpsBPairs]
  | cons p kvs => cases p; simp [dumpsBPairs]

lemma loadsBF_roundtrip :
    ∀ fuel : ℕ,
      (∀ (v : AVal) (rest : List ℕ), (dumpsB v).length ≤ fuel →
        loadsBF fuel (dumpsB v ++ rest) = some (v, rest)) ∧
      (∀ (vs : List AVal) (rest : List ℕ), (dumpsBList vs).length ≤ fuel →
        loadsBFList fuel (dumpsBList vs ++ rest) = some (vs, rest)) ∧
      (∀ (kvs : List (String × AVal)) (rest : List ℕ),
        (dumpsBPairs kvs).length ≤ fuel →
        loadsBFPairs fuel (dumpsBPairs kvs ++ rest) = some (kvs, rest)) := by
  intro fuel
  induction fuel with
  | zero =>
    refine ⟨?_, ?_, ?_⟩
    · intro v rest h
      have hp := dumpsB_length_pos v
      exact absurd h (by omega)
    · intro vs rest h
      have hp := dumpsBList_length_pos vs
      exact absurd h (by omega)
    · intro kvs rest h
      have hp := dumpsBPairs_length_pos kvs
      exact absurd h (by omega)
  | succ f ih =>
    obtain ⟨ihV, ihL, ihP⟩ := ih
    refine ⟨?_, ?_, ?_⟩
    · intro v rest h
      cases v with
      | null =>
        show loadsBF (f + 1) (0 :: rest) = _
        rw [loadsBF_tag0]
      | boolean b =>
        cases b
        · show loadsBF (f + 1) (1 :: 0 :: rest) = _
          rw [loadsBF_tag1]
          rfl
        · show loadsBF (f + 1) (1 :: 1 :: rest) = _
          rw [loadsBF_tag1]
          rfl
      | int n =>
        have hds := natSeqDec_enc (Nat.digits 256 n.natAbs) rest
        rcases Int.lt_or_le n 0 with hn | hn
        · show loadsBF (f + 1)
            (2 :: (if n < 0 then 1 else 0) :: (natSeqEnc (Nat.digits 256 n.natAbs) ++ rest)) = _
          rw [if_pos hn, loadsBF_tag2, hds, Option.map_some']
          have hval : -((n.natAbs : ℤ)) = n := by omega
          rw [if_pos rfl, Nat.ofDigits_digits, hval]
        · show loadsBF (f + 1)
            (2 :: (if n < 0 then 1 else 0) :: (natSeqEnc (Nat.digits 256 n.natAbs) ++ rest)) = _
          rw [if_neg (by omega), loadsBF_tag2, hds, Option.map_some']
          have hval : ((n.natAbs : ℤ)) = n := by omega
          rw [if_neg (by decide : ¬ (0 : ℕ) = 1), Nat.ofDigits_digits, hval]
      | str s =>
        show loadsBF (f + 1) (3 :: (charSeqEnc s.data ++ rest)) = _
        rw [loadsBF_tag3, charSeqDec_enc, Option.map_some']
      | arr xs =>
        have hlen : (dumpsBList xs).length ≤ f := by
          simp only [dumpsB, List.length_cons] at h
          omega
        show loadsBF (f + 1) (4 :: (dumpsBList xs ++ rest)) = _
        rw [loadsBF_tag4, ihL xs rest hlen, Option.map_some']
      | map kvs =>
        have hlen : (dumpsBPairs kvs).length ≤ f := by
          simp only [dumpsB, List.length_cons] at h
          omega
        show loadsBF (f + 1) (5 :: (dumpsBPairs kvs ++ rest)) = _
        rw [loadsBF_tag5, ihP kvs rest hlen, Option.map_some']
    · intro vs rest h
      cases vs with
      | nil =>
        show loadsBFList (f + 1) (0 :: rest) = _
        rw [loadsBFList_b0]
      | cons v vs =>
        have hv := dumpsB_length_pos v
        have hvs := dumpsBList_length_pos vs
        simp only [dumpsBList, List.length_cons, List.length_append] at h
        have h1 : (dumpsB v).length ≤ f := by omega
        have h2 : (dumpsBList vs).length ≤ f := by omega
        show loadsBFList (f + 1) (1 :: (dumpsB v ++ dumpsBList vs ++ rest)) = _
        rw [List.append_assoc, loadsBFList_b1, ihV v _ h1, Option.some_bind,
          ihL vs rest h2, Option.map_some']
    · intro kvs rest h
      cases kvs with
      | nil =>
        show loadsBFPairs (f + 1) (0 :: rest) = _
        rw [loadsBFPairs_b0]
      | cons p kvs =>
        obtain ⟨k, v⟩ := p
        have hv := dumpsB_length_pos v
        have hkvs := dumpsBPairs_length_pos kvs
        simp only [dumpsBPairs, List.length_cons, List.length_append,
          strEnc] at h ⊢
        have h1 : (dumpsB v).length ≤ f := by omega
        have h2 : (dumpsBPairs kvs).length ≤ f := by omega
        show loadsBFPairs (f + 1)
          (1 :: (charSeqEnc k.data ++ dumpsB v ++ dumpsBPairs kvs ++ rest)) = _
        rw [List.append_assoc, List.append_assoc, loadsBFPairs_b1,
          charSeqDec_enc, Option.some_bind, ihV v _ h1, Option.some_bind,
          ihP kvs rest h2, Option.map_some']

/-- Binary round trip: decoding an encoded value recovers it exactly. -/
lemma loadsB_dumpsB (v : AVal) : loadsB (dumpsB v) = some (v, []) := by
  have h := (loadsBF_roundtrip ((dumpsB v).length + 1)).1 v [] (by omega)
  simpa using h

/-! ### Textual encoding

Modelled from the spec: the bodies of `json.dumps` / `json.loads` are
standard-library code outside this unit; the spec describes the output as
"a textual indented encoding (deterministic key ordering)". It is
modelled as the indent-4 JSON layout with keys sorted at every object,
matching `json.dumps(output, sort_keys=True, indent=4)`: each container
item on its own line, indented four spaces per depth level, `": "` after
keys, `","` between items; `'"'` and `'\'` backslash-escaped in strings.
-/

/-- Backslash-escape one string character. -/
def escapeChar (c : Char) : List Char :=
  if c = '"' ∨ c = '\\' then ['\\', c] else [c]

/-- Backslash-escape a string body. -/
def escapeStr (cs : List Char) : List Char := (cs.map escapeChar).flatten

/-- Decimal rendering of a natural number. -/
def natRender (n : ℕ) : List Char :=
  if n = 0 then ['0']
  else ((Nat.digits 10 n).map (fun d => Char.ofNat (48 + d))).reverse

/-- Decimal rendering of an integer. -/
def intRender (n : ℤ) : List Char :=
  if n < 0 then '-' :: natRender n.natAbs else natRender n.toNat

/-- Indentation: four spaces per depth level. -/
def indentStr (d : ℕ) : List Char := List.replicate (4 * d) ' '

mutual
/-- Render a value at depth `d` in the indent-4 layout. -/
def renderJ : ℕ → AVal → List Char
  | _, .null => ['n', 'u', 'l', 'l']
  | _, .boolean true => ['t', 'r', 'u', 'e']
  | _, .boolean false => ['f', 'a', 'l', 's', 'e']
  | _, .int n => intRender n
  | _, .str s => '"' :: (escapeStr s.data ++ ['"'])
  | _, .arr [] => ['[', ']']
  | d, .arr (x :: xs) =>
    '[' :: '\n' :: (renderJItems (d + 1) x xs ++ '\n' :: (indentStr d ++ [']']))
  | _, .map [] => ['{', '}']
  | d, .map (p :: ps) =>
    '{' :: '\n' :: (renderJPairs (d + 1) p ps ++ '\n' :: (indentStr d ++ ['}']))
termination_by d v => sizeOf v
decreasing_by all_goals (simp_wf <;> omega)

/-- Render a nonempty run of array items, one per line. -/
def renderJItems : ℕ → AVal → List AVal → List Char
  | d, x, [] => indentStr d ++ renderJ d x
  | d, x, y :: ys =>
    indentStr d ++ (renderJ d x ++ ',' :: '\n' :: renderJItems d y ys)
termination_by d x xs => sizeOf x + sizeOf xs
decreasing_by all_goals (simp_wf <;> omega)

/-- Render a nonempty run of object entries, one per line. -/
def renderJPairs : ℕ → (String × AVal) → List (String × AVal) → List Char
  | d, (k, v), [] =>
    indentStr d ++ ('"' :: (escapeStr k.data ++ '"' :: ':' :: ' ' :: renderJ d v))
  | d, (k, v), q :: qs =>
    indentStr d ++ ('"' :: (escapeStr k.data ++ '"' :: ':' :: ' ' :: renderJ d v)) ++
      ',' :: '\n' :: renderJPairs d q qs
termination_by d p ps => sizeOf p + sizeOf ps
decreasing_by all_goals (simp_wf <;> omega)
end

/-- Key order used by `sort_keys=True`: compare entries by key. -/
def keyLE (a b : String × AVal) : Prop := a.1 ≤ b.1

instance : DecidableRel keyLE := fun a b =>
  inferInstanceAs (Decidable (a.1 ≤ b.1))

instance : IsTotal (String × AVal) keyLE := ⟨fun a b => le_total a.1 b.1⟩

instance : IsTrans (String × AVal) keyLE :=
  ⟨fun _ _ _ h1 h2 => le_trans h1 h2⟩

mutual
/-- Recursively sort the keys of every object, as `sort_keys=True` does
at serialization time. -/
def canon : AVal → AVal
  | .null => .null
  | .boolean b => .boolean b
  | .int n => .int n
  | .str s => .str s
  | .arr xs => .arr (canonList xs)
  | .map kvs =>
    .map (List.insertionSort keyLE (canonPairs kvs))

/-- Apply `canon` to each element of a list. -/
def canonList : List AVal → List AVal
  | [] => []
  | v :: vs => canon v :: canonList vs

/-- Apply `canon` to the value of each pair. -/
def canonPairs : List (String × AVal) → List (String × AVal)
  | [] => []
  | (k, v) :: kvs => (k, canon v) :: canonPairs kvs
end

/-- Encoder `json.dumps(output, sort_keys=True, indent=4)` (modelled from the
spec): keys sorted at every level, then rendered at depth 0. -/
def json_dumps (v : AVal) : List Char := renderJ 0 (canon v)

/-- Whitespace test (space, newline, tab, carriage return). -/
def isWsChar (c : Char) : Bool :=
  c.toNat = 32 || c.toNat = 10 || c.toNat = 9 || c.toNat = 13

/-- Skip leading whitespace. -/
def skipWs (cs : List Char) : List Char := cs.dropWhile isWsChar

/-- Decimal digit test. -/
def isDigitChar (c : Char) : Bool := 48 ≤ c.toNat && c.toNat ≤ 57

/-- Parse a string body after the opening quote, unescaping. -/
def parseStrBody : List Char → Option (List Char × List Char)
  | [] => none
  | c :: r =>
    if c = '"' then some ([], r)
    else if c = '\\' then
      match r with
      | [] => none
      | c2 :: r2 => (parseStrBody r2).map (fun p => (c2 :: p.1, p.2))
    else (parseStrBody r).map (fun p => (c :: p.1, p.2))

/-- Split a leading digit run. -/
def parseDigits (cs : List Char) : List Char × List Char :=
  (cs.takeWhile isDigitChar, cs.dropWhile isDigitChar)

/-- Numeric value of a digit run. -/
def digitsVal (ds : List Char) : ℕ :=
  Nat.ofDigits 10 ((ds.map (fun c => c.toNat - 48)).reverse)

/-- Does the input start with `']'`? -/
def headIsRB : List Char → Bool
  | c :: _ => c = ']'
  | [] => false

/-- Does the input start with `'}'`? -/
def headIsCB : List Char → Bool
  | c :: _ => c = '}'
  | [] => false

mutual
/-- The textual decoder corresponding to `json.dumps` (modelled from the
spec), fuel-indexed: parse one value. -/
def parseJ : ℕ → List Char → Option (AVal × List Char)
  | 0, _ => none
  | fuel + 1, input =>
    match skipWs input with
    | [] => none
    | c :: r =>
      if c = 'n' then
        match r with
        | c1 :: c2 :: c3 :: r2 =>
          if c1 = 'u' ∧ c2 = 'l' ∧ c3 = 'l' then some (.null, r2) else none
        | _ => none
      else if c = 't' then
        match r with
        | c1 :: c2 :: c3 :: r2 =>
          if c1 = 'r' ∧ c2 = 'u' ∧ c3 = 'e' then some (.boolean true, r2) else none
        | _ => none
      else if c = 'f' then
        match r with
        | c1 :: c2 :: c3 :: c4 :: r2 =>
          if c1 = 'a' ∧ c2 = 'l' ∧ c3 = 's' ∧ c4 = 'e' then
            some (.boolean false, r2)
          else none
        | _ => none
      else if c = '"' then
        (parseStrBody r).map (fun p => (.str ⟨p.1⟩, p.2))
      else if c = '-' then
        if (parseDigits r).1.isEmpty then none
        else some (.int (-((digitsVal (parseDigits r).1 : ℕ) : ℤ)), (parseDigits r).2)
      else if isDigitChar c then
        some (.int ((digitsVal (parseDigits (c :: r)).1 : ℕ) : ℤ),
          (parseDigits (c :: r)).2)
      else if c = '[' then
        if headIsRB (skipWs r) then some (.arr [], (skipWs r).tail)
        else (parseJItems fuel r).map (fun p => (.arr p.1, p.2))
      else if c = '{' then
        if headIsCB (skipWs r) then some (.map [], (skipWs r).tail)
        else (parseJPairs fuel r).map (fun p => (.map p.1, p.2))
      else none

/-- Parse the remaining items of a nonempty array, including the
closing bracket. -/
def parseJItems : ℕ → List Char → Option (List AVal × List Char)
  | 0, _ => none
  | fuel + 1, input =>
    (parseJ fuel input).bind (fun p =>
      match skipWs p.2 with
      | c :: r2 =>
        if c = ',' then (parseJItems fuel r2).map (fun q => (p.1 :: q.1, q.2))
        else if c = ']' then some ([p.1], r2)
        else none
      | [] => none)

/-- Parse the remaining entries of a nonempty object, including the
closing brace. -/
def parseJPairs : ℕ → List Char → Option (List (String × AVal) × List Char)
  | 0, _ => none
  | fuel + 1, input =>
    match skipWs input with
    | c :: r =>
      if c = '"' then
        (parseStrBody r).bind (fun pk =>
          match skipWs pk.2 with
          | c2 :: r3 =>
            if c2 = ':' then
              (parseJ fuel r3).bind (fun pv =>
                match skipWs pv.2 with
                | c3 :: r5 =>
                  if c3 = ',' then
                    (parseJPairs fuel r5).map
                      (fun q => ((⟨pk.1⟩, pv.1) :: q.1, q.2))
                  else if c3 = '}' then some ([(⟨pk.1⟩, pv.1)], r5)
                  else none
                | [] => none)
            else none
          | [] => none)
      else none
    | [] => none
end

/-- Decoder `json.loads` (modelled from the spec): decode a character list. -/
def json_loads (cs : List Char) : Option (AVal × List Char) :=
  parseJ (cs.length + 1) cs

/-- The next input character is not a digit (or there is none): parsing
a rendered number followed by such input cannot overrun. -/
def numSafe : List Char → Prop
  | [] => True
  | c :: _ => isDigitChar c = false

lemma skipWs_cons_not_ws {c : Char} (h : isWsChar c = false) (t : List Char) :
    skipWs (c :: t) = c :: t := by
  simp [skipWs, List.dropWhile_cons, h]

lemma skipWs_append_ws {pre : List Char} (h : ∀ c ∈ pre, isWsChar c = true)
    (X : List Char) : skipWs (pre ++ X) = skipWs X := by
  induction pre with
  | nil => rfl
  | cons c t ih =>
    have hc : isWsChar c = true := h c (by simp)
    simp only [List.cons_append, skipWs, List.dropWhile_cons, hc, if_true]
    exact ih (fun c hc => h c (by simp [hc]))

lemma skipWs_indent (d : ℕ) (X : List Char) :
    skipWs (indentStr d ++ X) = skipWs X := by
  refine skipWs_append_ws ?_ X
  intro c hc
  rw [indentStr] at hc
  have : c = ' ' := List.eq_of_mem_replicate hc
  subst this
  decide

lemma skipWs_newline (X : List Char) : skipWs ('\n' :: X) = skipWs X := by
  simp [skipWs, List.dropWhile_cons, show isWsChar '\n' = true from by decide]

lemma parseStrBody_quote (r : List Char) :
    parseStrBody ('"' :: r) = some ([], r) := by
  rw [parseStrBody.eq_def]
  simp

lemma parseStrBody_esc (c : Char) (r : List Char) :
    parseStrBody ('\\' :: c :: r) =
      (parseStrBody r).map (fun p => (c :: p.1, p.2)) := by
  conv_lhs => rw [parseStrBody.eq_def]
  simp

lemma parseStrBody_other {c : Char} (h1 : ¬ c = '"') (h2 : ¬ c = '\\')
    (r : List Char) :
    parseStrBody (c :: r) = (parseStrBody r).map (fun p => (c :: p.1, p.2)) := by
  conv_lhs => rw [parseStrBody.eq_def]
  simp only [if_neg h1, if_neg h2]

lemma parseStrBody_escape (cs rest : List Char) :
    parseStrBody (escapeStr cs ++ '"' :: rest) = some (cs, rest) := by
  induction cs with
  | nil =>
    show parseStrBody (escapeStr [] ++ '"' :: rest) = some ([], rest)
    rw [show escapeStr [] = [] from rfl, List.nil_append, parseStrBody_quote]
  | cons c cs ih =>
    have hstep : escapeStr (c :: cs) = escapeChar c ++ escapeStr cs := by
      simp [escapeStr]
    by_cases hc : c = '"' ∨ c = '\\'
    · have hec : escapeChar c = ['\\', c] := by rw [escapeChar, if_pos hc]
      rw [hstep, hec, List.append_assoc, List.cons_append, List.cons_append,
        List.nil_append, parseStrBody_esc, ih]
      rfl
    · push_neg at hc
      have hec : escapeChar c = [c] := by rw [escapeChar, if_neg (by tauto)]
      rw [hstep, hec, List.append_assoc, List.cons_append, List.nil_append,
        parseStrBody_other hc.1 hc.2, ih]
      rfl

lemma digit_char_toNat {d : ℕ} (h : d < 10) :
    (Char.ofNat (48 + d)).toNat = 48 + d := by
  interval_cases d <;> decide

lemma natRender_all_digits (n : ℕ) :
    ∀ c ∈ natRender n, isDigitChar c = true := by
  intro c hc
  rw [natRender] at hc
  split at hc
  · simp only [List.mem_singleton] at hc
    subst hc
    decide
  · simp only [List.mem_reverse, List.mem_map] at hc
    obtain ⟨d, hd, hcd⟩ := hc
    have hd10 : d < 10 := Nat.digits_lt_base (by norm_num) hd
    subst hcd
    simp only [isDigitChar, digit_char_toNat hd10, Bool.and_eq_true,
      decide_eq_true_eq]
    omega

lemma natRender_ne_nil (n : ℕ) : natRender n ≠ [] := by
  rw [natRender]
  split
  · simp
  · simp only [ne_eq, List.reverse_eq_nil_iff, List.map_eq_nil_iff]
    exact Nat.digits_ne_nil_iff_ne_zero.mpr (by assumption)

lemma digitsVal_natRender (n : ℕ) : digitsVal (natRender n) = n := by
  rw [natRender]
  split
  · subst (by assumption : n = 0)
    decide
  · rw [digitsVal, List.map_reverse, List.reverse_reverse, List.map_map]
    have hmap : (Nat.digits 10 n).map
        ((fun c => c.toNat - 48) ∘ (fun d => Char.ofNat (48 + d))) =
        (Nat.digits 10 n).map id := by
      refine List.map_congr_left ?_
      intro d hd
      have hd10 : d < 10 := Nat.digits_lt_base (by norm_num) hd
      simp [Function.comp, digit_char_toNat hd10]
    rw [hmap, List.map_id]
    exact Nat.ofDigits_digits 10 n

lemma takeWhile_append_all {p : Char → Bool} :
    ∀ (A B : List Char), (∀ c ∈ A, p c = true) →
      (A ++ B).takeWhile p = A ++ B.takeWhile p := by
  intro A
  induction A with
  | nil => intro B _; rfl
  | cons c t ih =>
    intro B h
    have hc : p c = true := h c (by simp)
    simp only [List.cons_append, List.takeWhile_cons, hc, if_true]
    rw [ih B (fun c hc => h c (by simp [hc]))]

lemma dropWhile_append_all {p : Char → Bool} :
    ∀ (A B : List Char), (∀ c ∈ A, p c = true) →
      (A ++ B).dropWhile p = B.dropWhile p := by
  intro A
  induction A with
  | nil => intro B _; rfl
  | cons c t ih =>
    intro B h
    have hc : p c = true := h c (by simp)
    simp only [List.cons_append, List.dropWhile_cons, hc, if_true]
    exact ih B (fun c hc => h c (by simp [hc]))

lemma parseJ_step (f : ℕ) (input : List Char) (c : Char) (r : List Char)
    (h : skipWs input = c :: r) :
    parseJ (f + 1) input =
      (if c = 'n' then
        match r with
        | c1 :: c2 :: c3 :: r2 =>
          if c1 = 'u' ∧ c2 = 'l' ∧ c3 = 'l' then some (.null, r2) else none
        | _ => none
      else if c = 't' then
        match r with
        | c1 :: c2 :: c3 :: r2 =>
          if c1 = 'r' ∧ c2 = 'u' ∧ c3 = 'e' then some (.boolean true, r2) else none
        | _ => none
      else if c = 'f' then
        match r with
        | c1 :: c2 :: c3 :: c4 :: r2 =>
          if c1 = 'a' ∧ c2 = 'l' ∧ c3 = 's' ∧ c4 = 'e' then
            some (.boolean false, r2)
          else none
        | _ => none
      else if c = '"' then
        (parseStrBody r).map (fun p => (.str ⟨p.1⟩, p.2))
      else if c = '-' then
        if (parseDigits r).1.isEmpty then none
        else some (.int (-((digitsVal (parseDigits r).1 : ℕ) : ℤ)), (parseDigits r).2)
      else if isDigitChar c then
        some (.int ((digitsVal (parseDigits (c :: r)).1 : ℕ) : ℤ),
          (parseDigits (c :: r)).2)
      else if c = '[' then
        if headIsRB (skipWs r) then some (.arr [], (skipWs r).tail)
        else (parseJItems f r).map (fun p => (.arr p.1, p.2))
      else if c = '{' then
        if headIsCB (skipWs r) then some (.map [], (skipWs r).tail)
        else (parseJPairs f r).map (fun p => (.map p.1, p.2))
      else none) := by
  simp only [parseJ]
  rw [h]

lemma parseJItems_succ (f : ℕ) (input : List Char) :
    parseJItems (f + 1) input =
      (parseJ f input).bind (fun p =>
        match skipWs p.2 with
        | c :: r2 =>
          if c = ',' then (parseJItems f r2).map (fun q => (p.1 :: q.1, q.2))
          else if c = ']' then some ([p.1], r2)
          else none
        | [] => none) := by
  simp only [parseJItems]

lemma parseJPairs_step (f : ℕ) (input : List Char) (c : Char) (r : List Char)
    (h : skipWs input = c :: r) :
    parseJPairs (f + 1) input =
      (if c = '"' then
        (parseStrBody r).bind (fun pk =>
          match skipWs pk.2 with
          | c2 :: r3 =>
            if c2 = ':' then
              (parseJ f r3).bind (fun pv =>
                match skipWs pv.2 with
                | c3 :: r5 =>
                  if c3 = ',' then
                    (parseJPairs f r5).map
                      (fun q => ((⟨pk.1⟩, pv.1) :: q.1, q.2))
                  else if c3 = '}' then some ([(⟨pk.1⟩, pv.1)], r5)
                  else none
                | [] => none)
            else none
          | [] => none)
      else none) := by
  simp only [parseJPairs]
  rw [h]

lemma parseJ_ws_absorb (f : ℕ) {pre : List Char}
    (h : ∀ c ∈ pre, isWsChar c = true) (X : List Char) :
    parseJ f (pre ++ X) = parseJ f X := by
  cases f with
  | zero => rfl
  | succ f =>
    simp only [parseJ]
    rw [skipWs_append_ws h]

lemma parseDigits_append (A B : List Char)
    (hA : ∀ c ∈ A, isDigitChar c = true) (hB : numSafe B) :
    parseDigits (A ++ B) = (A, B) := by
  have ht : B.takeWhile isDigitChar = [] := by
    cases B with
    | nil => rfl
    | cons c t =>
      simp only [numSafe] at hB
      simp [List.takeWhile_cons, hB]
  have hd : B.dropWhile isDigitChar = B := by
    cases B with
    | nil => rfl
    | cons c t =>
      simp only [numSafe] at hB
      simp [List.dropWhile_cons, hB]
  rw [parseDigits, takeWhile_append_all A B hA, dropWhile_append_all A B hA,
    ht, hd, List.append_nil]

lemma digit_head_facts {c : Char} (h : isDigitChar c = true) :
    isWsChar c = false ∧ ¬ c = ']' ∧ ¬ c = '}' ∧ ¬ c = 'n' ∧ ¬ c = 't' ∧
    ¬ c = 'f' ∧ ¬ c = '"' ∧ ¬ c = '-' := by
  have hr : 48 ≤ c.toNat ∧ c.toNat ≤ 57 := by
    simpa [isDigitChar, Bool.and_eq_true, decide_eq_true_eq] using h
  refine ⟨?_, ?_, ?_, ?_, ?_, ?_, ?_, ?_⟩
  · simp only [isWsChar, Bool.or_eq_false_iff, decide_eq_false_iff_not]
    omega
  all_goals (intro he; subst he; exact absurd h (by decide))

lemma indent_all_ws (d : ℕ) : ∀ c ∈ indentStr d, isWsChar c = true := by
  intro c hc
  rw [indentStr] at hc
  have : c = ' ' := List.eq_of_mem_replicate hc
  subst this
  decide

lemma parseJ_ws_absorb2 (f : ℕ) {p1 p2 : List Char}
    (h1 : ∀ c ∈ p1, isWsChar c = true) (h2 : ∀ c ∈ p2, isWsChar c = true)
    (X : List Char) : parseJ f (p1 ++ (p2 ++ X)) = parseJ f X := by
  rw [← List.append_assoc]
  refine parseJ_ws_absorb f ?_ X
  intro c hc
  rcases List.mem_append.mp hc with h | h
  · exact h1 c h
  · exact h2 c h

lemma renderJ_length_pos (d : ℕ) (v : AVal) : 1 ≤ (renderJ d v).length := by
  cases v with
  | null => simp [renderJ]
  | boolean b => cases b <;> simp [renderJ]
  | int n =>
    have h1 : renderJ d (.int n) = intRender n := by simp [renderJ]
    rw [h1, intRender]
    split
    · simp
    · have := natRender_ne_nil n.toNat
      cases hnr : natRender n.toNat with
      | nil => exact absurd hnr this
      | cons c t => simp [hnr]
  | str s => simp [renderJ]
  | arr xs => cases xs <;> simp [renderJ]
  | map kvs => cases kvs <;> simp [renderJ]

lemma renderJItems_length_pos (d : ℕ) (x : AVal) (xs : List AVal) :
    1 ≤ (renderJItems d x xs).length := by
  cases xs with
  | nil =>
    have := renderJ_length_pos d x
    simp [renderJItems]
    omega
  | cons y ys =>
    have := renderJ_length_pos d x
    simp [renderJItems]
    omega

lemma renderJPairs_length_pos (d : ℕ) (p : String × AVal)
    (ps : List (String × AVal)) : 1 ≤ (renderJPairs d p ps).length := by
  obtain ⟨k, v⟩ := p
  cases ps with
  | nil => simp [renderJPairs]; omega
  | cons q qs => simp [renderJPairs]; omega

lemma renderJ_head (d : ℕ) (v : AVal) :
    ∃ c t, renderJ d v = c :: t ∧ isWsChar c = false ∧ ¬ c = ']' ∧ ¬ c = '}' := by
  cases v with
  | null =>
    exact ⟨'n', ['u', 'l', 'l'], by simp [renderJ], by decide, by decide, by decide⟩
  | boolean b =>
    cases b
    · exact ⟨'f', ['a', 'l', 's', 'e'], by simp [renderJ], by decide, by decide,
        by decide⟩
    · exact ⟨'t', ['r', 'u', 'e'], by simp [renderJ], by decide, by decide,
        by decide⟩
  | int n =>
    have h1 : renderJ d (.int n) = intRender n := by simp [renderJ]
    rw [h1, intRender]
    split
    · exact ⟨'-', natRender n.natAbs, rfl, by decide, by decide, by decide⟩
    · cases hnr : natRender n.toNat with
      | nil => exact absurd hnr (natRender_ne_nil _)
      | cons c t =>
        have hc : isDigitChar c = true :=
          natRender_all_digits _ c (by rw [hnr]; simp)
        obtain ⟨h1, h2, h3, -⟩ := digit_head_facts hc
        exact ⟨c, t, rfl, h1, h2, h3⟩
  | str s =>
    exact ⟨'"', escapeStr s.data ++ ['"'], by simp [renderJ], by decide,
      by decide, by decide⟩
  | arr xs =>
    cases xs with
    | nil => exact ⟨'[', [']'], by simp [renderJ], by decide, by decide, by decide⟩
    | cons x xs =>
      exact ⟨'[', '\n' :: (renderJItems (d + 1) x xs ++
        '\n' :: (indentStr d ++ [']'])), by simp [renderJ], by decide, by decide,
        by decide⟩
  | map kvs =>
    cases kvs with
    | nil => exact ⟨'{', ['}'], by simp [renderJ], by decide, by decide, by decide⟩
    | cons p ps =>
      exact ⟨'{', '\n' :: (renderJPairs (d + 1) p ps ++
        '\n' :: (indentStr d ++ ['}'])), by simp [renderJ], by decide, by decide,
        by decide⟩

lemma renderJItems_decomp (d : ℕ) (x : AVal) (xs : List AVal) :
    ∃ T, renderJItems d x xs = indentStr d ++ (renderJ d x ++ T) := by
  cases xs with
  | nil => exact ⟨[], by simp [renderJItems]⟩
  | cons y ys => exact ⟨',' :: '\n' :: renderJItems d y ys, by simp [renderJItems]⟩

lemma renderJPairs_decomp (d : ℕ) (k : String) (v : AVal)
    (ps : List (String × AVal)) :
    ∃ T, renderJPairs d (k, v) ps =
      indentStr d ++ ('"' :: (escapeStr k.data ++
        '"' :: ':' :: ' ' :: (renderJ d v ++ T))) := by
  cases ps with
  | nil => exact ⟨[], by simp [renderJPairs]⟩
  | cons q qs => exact ⟨',' :: '\n' :: renderJPairs d q qs, by simp [renderJPairs]⟩

lemma parseJ_roundtrip :
    ∀ fuel : ℕ,
      (∀ (v : AVal) (d : ℕ) (rest : List Char),
        (renderJ d v).length ≤ fuel → numSafe rest →
        parseJ fuel (renderJ d v ++ rest) = some (v, rest)) ∧
      (∀ (x : AVal) (xs : List AVal) (d dc : ℕ) (rest pre : List Char),
        (∀ c ∈ pre, isWsChar c = true) →
        (renderJItems d x xs).length < fuel →
        parseJItems fuel
          (pre ++ (renderJItems d x xs ++
            '\n' :: (indentStr dc ++ ']' :: rest))) = some (x :: xs, rest)) ∧
      (∀ (k : String) (v : AVal) (ps : List (String × AVal)) (d dc : ℕ)
          (rest pre : List Char),
        (∀ c ∈ pre, isWsChar c = true) →
        (renderJPairs d (k, v) ps).length < fuel →
        parseJPairs fuel
          (pre ++ (renderJPairs d (k, v) ps ++
            '\n' :: (indentStr dc ++ '}' :: rest))) = some ((k, v) :: ps, rest)) := by
  intro fuel
  induction fuel with
  | zero =>
    refine ⟨?_, ?_, ?_⟩
    · intro v d rest hlen _
      have := renderJ_length_pos d v
      exact absurd hlen (by omega)
    · intro x xs d dc rest pre _ hlen
      exact absurd hlen (by omega)
    · intro k v ps d dc rest pre _ hlen
      exact absurd hlen (by omega)
  | succ f ih =>
    obtain ⟨ihV, ihL, ihP⟩ := ih
    have hval : ∀ (d' : ℕ) (x' : AVal) (ws trail : List Char),
        (∀ c ∈ ws, isWsChar c = true) →
        (renderJ d' x').length ≤ f → numSafe trail →
        parseJ f (ws ++ (renderJ d' x' ++ trail)) = some (x', trail) := by
      intro d' x' ws trail hws hl htr
      rw [parseJ_ws_absorb f hws]
      exact ihV x' d' trail hl htr
    refine ⟨?_, ?_, ?_⟩
    · intro v d rest hlen hrest
      cases v with
      | null =>
        rw [show renderJ d .null = ['n', 'u', 'l', 'l'] from by simp [renderJ]]
        simp only [List.cons_append, List.nil_append]
        have hskip := skipWs_cons_not_ws
          (show isWsChar 'n' = false from by decide) ('u' :: 'l' :: 'l' :: rest)
        rw [parseJ_step f _ _ _ hskip, if_pos rfl]
        simp
      | boolean b =>
        cases b
        · rw [show renderJ d (.boolean false) = ['f', 'a', 'l', 's', 'e'] from
            by simp [renderJ]]
          simp only [List.cons_append, List.nil_append]
          have hskip := skipWs_cons_not_ws
            (show isWsChar 'f' = false from by decide)
            ('a' :: 'l' :: 's' :: 'e' :: rest)
          rw [parseJ_step f _ _ _ hskip, if_neg (by decide : ¬ 'f' = 'n'),
            if_neg (by decide : ¬ 'f' = 't'), if_pos rfl]
          simp
        · rw [show renderJ d (.boolean true) = ['t', 'r', 'u', 'e'] from
            by simp [renderJ]]
          simp only [List.cons_append, List.nil_append]
          have hskip := skipWs_cons_not_ws
            (show isWsChar 't' = false from by decide) ('r' :: 'u' :: 'e' :: rest)
          rw [parseJ_step f _ _ _ hskip, if_neg (by decide : ¬ 't' = 'n'),
            if_pos rfl]
          simp
      | int n =>
        rw [show renderJ d (.int n) = intRender n from by simp [renderJ],
          intRender]
        rcases lt_or_le n 0 with hn | hn
        · rw [if_pos hn]
          simp only [List.cons_append]
          have hskip := skipWs_cons_not_ws
            (show isWsChar '-' = false from by decide) (natRender n.natAbs ++ rest)
          rw [parseJ_step f _ _ _ hskip, if_neg (by decide : ¬ '-' = 'n'),
            if_neg (by decide : ¬ '-' = 't'), if_neg (by decide : ¬ '-' = 'f'),
            if_neg (by decide : ¬ '-' = '"'), if_pos rfl,
            parseDigits_append _ _ (natRender_all_digits _) hrest]
          rw [if_neg (by
            cases hnr : natRender n.natAbs with
            | nil => exact absurd hnr (natRender_ne_nil _)
            | cons c t => simp [hnr])]
          rw [show (natRender n.natAbs, rest).1 = natRender n.natAbs from rfl,
            show (natRender n.natAbs, rest).2 = rest from rfl,
            digitsVal_natRender]
          have hv : -((n.natAbs : ℕ) : ℤ) = n := by omega
          rw [hv]
        · rw [if_neg (by omega : ¬ n < 0)]
          cases hnr : natRender n.toNat with
          | nil => exact absurd hnr (natRender_ne_nil _)
          | cons c t =>
            have hc : isDigitChar c = true :=
              natRender_all_digits _ c (by rw [hnr]; simp)
            obtain ⟨hw, -, -, h1, h2, h3, h4, h5⟩ := digit_head_facts hc
            simp only [List.cons_append]
            have hskip := skipWs_cons_not_ws hw (t ++ rest)
            rw [parseJ_step f _ _ _ hskip, if_neg h1, if_neg h2, if_neg h3,
              if_neg h4, if_neg h5, if_pos hc]
            have hre : c :: (t ++ rest) = natRender n.toNat ++ rest := by
              rw [hnr]
              rfl
            rw [hre, parseDigits_append _ _ (natRender_all_digits _) hrest]
            rw [show (natRender n.toNat, rest).1 = natRender n.toNat from rfl,
              show (natRender n.toNat, rest).2 = rest from rfl,
              digitsVal_natRender]
            have hv : ((n.toNat : ℕ) : ℤ) = n := by omega
            rw [hv]
      | str s =>
        rw [show renderJ d (.str s) = '"' :: (escapeStr s.data ++ ['"']) from
          by simp [renderJ]]
        simp only [List.cons_append, List.append_assoc, List.singleton_append,
            List.nil_append]
        have hskip := skipWs_cons_not_ws
          (show isWsChar '"' = false from by decide)
          (escapeStr s.data ++ '"' :: rest)
        rw [parseJ_step f _ _ _ hskip, if_neg (by decide : ¬ '"' = 'n'),
          if_neg (by decide : ¬ '"' = 't'), if_neg (by decide : ¬ '"' = 'f'),
          if_pos rfl, parseStrBody_escape]
        rfl
      | arr xs =>
        cases xs with
        | nil =>
          rw [show renderJ d (.arr []) = ['[', ']'] from by simp [renderJ]]
          simp only [List.cons_append, List.nil_append]
          have hskip := skipWs_cons_not_ws
            (show isWsChar '[' = false from by decide) (']' :: rest)
          have hskip2 := skipWs_cons_not_ws
            (show isWsChar ']' = false from by decide) rest
          rw [parseJ_step f _ _ _ hskip, if_neg (by decide : ¬ '[' = 'n'),
            if_neg (by decide : ¬ '[' = 't'), if_neg (by decide : ¬ '[' = 'f'),
            if_neg (by decide : ¬ '[' = '"'), if_neg (by decide : ¬ '[' = '-'),
            if_neg (by decide : ¬ isDigitChar '[' = true), if_pos rfl, hskip2,
            if_pos (by simp [headIsRB])]
          rfl
        | cons x xs =>
          have hLI : (renderJItems (d + 1) x xs).length < f := by
            have hLJ : (renderJ d (.arr (x :: xs))).length =
                (renderJItems (d + 1) x xs).length + 4 * d + 4 := by
              simp [renderJ, indentStr]
              omega
            omega
          rw [show renderJ d (.arr (x :: xs)) =
            '[' :: '\n' :: (renderJItems (d + 1) x xs ++
              '\n' :: (indentStr d ++ [']'])) from by simp [renderJ]]
          simp only [List.cons_append, List.append_assoc, List.singleton_append,
            List.nil_append]
          have hskip := skipWs_cons_not_ws
            (show isWsChar '[' = false from by decide)
            ('\n' :: (renderJItems (d + 1) x xs ++
              '\n' :: (indentStr d ++ ']' :: rest)))
          rw [parseJ_step f _ _ _ hskip, if_neg (by decide : ¬ '[' = 'n'),
            if_neg (by decide : ¬ '[' = 't'), if_neg (by decide : ¬ '[' = 'f'),
            if_neg (by decide : ¬ '[' = '"'), if_neg (by decide : ¬ '[' = '-'),
            if_neg (by decide : ¬ isDigitChar '[' = true), if_pos rfl]
          obtain ⟨T, hT⟩ := renderJItems_decomp (d + 1) x xs
          obtain ⟨c0, t0, hc0, hw0, hrb0, hcb0⟩ := renderJ_head (d + 1) x
          have hsk2 : skipWs ('\n' :: (renderJItems (d + 1) x xs ++
              '\n' :: (indentStr d ++ ']' :: rest))) =
              c0 :: (t0 ++ (T ++ '\n' :: (indentStr d ++ ']' :: rest))) := by
            rw [skipWs_newline, hT]
            rw [List.append_assoc, skipWs_indent, List.append_assoc, hc0,
              List.cons_append]
            exact skipWs_cons_not_ws hw0 _
          rw [hsk2, if_neg (by simp [headIsRB, hrb0])]
          have hitems := ihL x xs (d + 1) d rest ['\n']
            (by intro c hc; simp at hc; subst hc; decide) hLI
          rw [List.singleton_append] at hitems
          rw [hitems]
          rfl
      | map kvs =>
        cases kvs with
        | nil =>
          rw [show renderJ d (.map []) = ['{', '}'] from by simp [renderJ]]
          simp only [List.cons_append, List.nil_append]
          have hskip := skipWs_cons_not_ws
            (show isWsChar '{' = false from by decide) ('}' :: rest)
          have hskip2 := skipWs_cons_not_ws
            (show isWsChar '}' = false from by decide) rest
          rw [parseJ_step f _ _ _ hskip, if_neg (by decide : ¬ '{' = 'n'),
            if_neg (by decide : ¬ '{' = 't'), if_neg (by decide : ¬ '{' = 'f'),
            if_neg (by decide : ¬ '{' = '"'), if_neg (by decide : ¬ '{' = '-'),
            if_neg (by decide : ¬ isDigitChar '{' = true),
            if_neg (by decide : ¬ '{' = '['), if_pos rfl, hskip2,
            if_pos (by simp [headIsCB])]
          rfl
        | cons p ps =>
          obtain ⟨k0, v0⟩ := p
          have hLP : (renderJPairs (d + 1) (k0, v0) ps).length < f := by
            have hLJ : (renderJ d (.map ((k0, v0) :: ps))).length =
                (renderJPairs (d + 1) (k0, v0) ps).length + 4 * d + 4 := by
              simp [renderJ, indentStr]
              omega
            omega
          rw [show renderJ d (.map ((k0, v0) :: ps)) =
            '{' :: '\n' :: (renderJPairs (d + 1) (k0, v0) ps ++
              '\n' :: (indentStr d ++ ['}'])) from by simp [renderJ]]
          simp only [List.cons_append, List.append_assoc, List.singleton_append,
            List.nil_append]
          have hskip := skipWs_cons_not_ws
            (show isWsChar '{' = false from by decide)
            ('\n' :: (renderJPairs (d + 1) (k0, v0) ps ++
              '\n' :: (indentStr d ++ '}' :: rest)))
          rw [parseJ_step f _ _ _ hskip, if_neg (by decide : ¬ '{' = 'n'),
            if_neg (by decide : ¬ '{' = 't'), if_neg (by decide : ¬ '{' = 'f'),
            if_neg (by decide : ¬ '{' = '"'), if_neg (by decide : ¬ '{' = '-'),
            if_neg (by decide : ¬ isDigitChar '{' = true),
            if_neg (by decide : ¬ '{' = '['), if_pos rfl]
          obtain ⟨T, hT⟩ := renderJPairs_decomp (d + 1) k0 v0 ps
          have hsk2 : skipWs ('\n' :: (renderJPairs (d + 1) (k0, v0) ps ++
              '\n' :: (indentStr d ++ '}' :: rest))) =
              '"' :: (escapeStr k0.data ++
                '"' :: ':' :: ' ' :: (renderJ (d + 1) v0 ++
                  (T ++ '\n' :: (indentStr d ++ '}' :: rest)))) := by
            rw [skipWs_newline, hT]
            rw [List.append_assoc, skipWs_indent, List.cons_append,
              skipWs_cons_not_ws (show isWsChar '"' = false from by decide)]
            simp [List.append_assoc]
          rw [hsk2, if_neg (by simp [headIsCB])]
          have hpairs := ihP k0 v0 ps (d + 1) d rest ['\n']
            (by intro c hc; simp at hc; subst hc; decide) hLP
          rw [List.singleton_append] at hpairs
          rw [hpairs]
          rfl
    · intro x xs d dc rest pre hpre hlen
      rw [parseJItems_succ]
      cases xs with
      | nil =>
        have hlx : (renderJ d x).length ≤ f := by
          have : (renderJItems d x []).length =
              (indentStr d).length + (renderJ d x).length := by
            simp [renderJItems]
          omega
        rw [show renderJItems d x [] = indentStr d ++ renderJ d x from
          by simp [renderJItems]]
        simp only [List.append_assoc]
        rw [parseJ_ws_absorb2 f hpre (indent_all_ws d),
          ihV x d _ hlx (by exact (by decide : isDigitChar '\n' = false))]
        simp only [Option.some_bind]
        have hsk : skipWs ('\n' :: (indentStr dc ++ ']' :: rest)) =
            ']' :: rest := by
          rw [skipWs_newline, skipWs_indent]
          exact skipWs_cons_not_ws (by decide) rest
        rw [hsk]
        simp
      | cons y ys =>
        have hlx : (renderJ d x).length ≤ f ∧
            (renderJItems d y ys).length < f := by
          have h1 : (renderJItems d x (y :: ys)).length =
              (indentStr d).length + (renderJ d x).length + 2 +
                (renderJItems d y ys).length := by
            simp [renderJItems]
            omega
          have h2 := renderJ_length_pos d x
          have h3 := renderJItems_length_pos d y ys
          omega
        rw [show renderJItems d x (y :: ys) =
          indentStr d ++ (renderJ d x ++ ',' :: '\n' :: renderJItems d y ys) from
          by simp [renderJItems]]
        simp only [List.append_assoc, List.cons_append]
        rw [parseJ_ws_absorb2 f hpre (indent_all_ws d),
          ihV x d _ hlx.1 (by exact (by decide : isDigitChar ',' = false))]
        simp only [Option.some_bind]
        have hsk : skipWs (',' :: ('\n' :: (renderJItems d y ys ++
            '\n' :: (indentStr dc ++ ']' :: rest)))) =
            ',' :: ('\n' :: (renderJItems d y ys ++
              '\n' :: (indentStr dc ++ ']' :: rest))) :=
          skipWs_cons_not_ws (by decide) _
        rw [hsk]
        have hitems := ihL y ys d dc rest ['\n']
          (by intro c hc; simp at hc; subst hc; decide) hlx.2
        rw [List.singleton_append] at hitems
        simp [hitems]
    · intro k v ps d dc rest pre hpre hlen
      have hkey : ∀ R, skipWs (pre ++ (indentStr d ++ ('"' :: R))) =
          '"' :: R := by
        intro R
        rw [skipWs_append_ws hpre, skipWs_append_ws (indent_all_ws d)]
        exact skipWs_cons_not_ws (by decide) R
      cases ps with
      | nil =>
        have hlx : (renderJ d v).length ≤ f := by
          have : (renderJPairs d (k, v) []).length =
              (indentStr d).length + (escapeStr k.data).length +
                (renderJ d v).length + 4 := by
            simp [renderJPairs]
            omega
          omega
        rw [show renderJPairs d (k, v) [] =
          indentStr d ++ ('"' :: (escapeStr k.data ++
            '"' :: ':' :: ' ' :: renderJ d v)) from by simp [renderJPairs]]
        simp only [List.append_assoc, List.cons_append]
        rw [parseJPairs_step f _ _ _ (hkey _), if_pos rfl]
        rw [show escapeStr k.data ++
          ('"' :: (':' :: (' ' :: (renderJ d v ++
            '\n' :: (indentStr dc ++ '}' :: rest))))) =
          escapeStr k.data ++
          '"' :: (':' :: (' ' :: (renderJ d v ++
            '\n' :: (indentStr dc ++ '}' :: rest)))) from rfl,
          parseStrBody_escape]
        simp only [Option.some_bind]
        rw [skipWs_cons_not_ws (show isWsChar ':' = false from by decide)]
        have hws1 : ∀ c ∈ [' '], isWsChar c = true := by
          intro c hc; simp at hc; subst hc; decide
        have hp := hval d v [' ']
          ('\n' :: (indentStr dc ++ '}' :: rest)) hws1 hlx
          (by exact (by decide : isDigitChar '\n' = false))
        rw [List.singleton_append] at hp
        have hsk : skipWs ('\n' :: (indentStr dc ++ '}' :: rest)) =
            '}' :: rest := by
          rw [skipWs_newline, skipWs_indent]
          exact skipWs_cons_not_ws (by decide) rest
        simp [hp, hsk]
      | cons q qs =>
        obtain ⟨k2, v2⟩ := q
        have hlx : (renderJ d v).length ≤ f ∧
            (renderJPairs d (k2, v2) qs).length < f := by
          have h1 : (renderJPairs d (k, v) ((k2, v2) :: qs)).length =
              (indentStr d).length + (escapeStr k.data).length +
                (renderJ d v).length +
                (renderJPairs d (k2, v2) qs).length + 6 := by
            simp [renderJPairs]
            omega
          have h2 := renderJ_length_pos d v
          have h3 := renderJPairs_length_pos d (k2, v2) qs
          omega
        rw [show renderJPairs d (k, v) ((k2, v2) :: qs) =
          indentStr d ++ ('"' :: (escapeStr k.data ++
            '"' :: ':' :: ' ' :: renderJ d v)) ++
            ',' :: '\n' :: renderJPairs d (k2, v2) qs from by simp [renderJPairs]]
        simp only [List.append_assoc, List.cons_append]
        rw [parseJPairs_step f _ _ _ (hkey _), if_pos rfl, parseStrBody_escape]
        simp only [Option.some_bind]
        rw [skipWs_cons_not_ws (show isWsChar ':' = false from by decide)]
        have hws1 : ∀ c ∈ [' '], isWsChar c = true := by
          intro c hc; simp at hc; subst hc; decide
        have hp := hval d v [' ']
          (',' :: ('\n' :: (renderJPairs d (k2, v2) qs ++
            '\n' :: (indentStr dc ++ '}' :: rest)))) hws1 hlx.1
          (by exact (by decide : isDigitChar ',' = false))
        rw [List.singleton_append] at hp
        have hpairs := ihP k2 v2 qs d dc rest ['\n']
          (by intro c hc; simp at hc; subst hc; decide) hlx.2
        rw [List.singleton_append] at hpairs
        simp [hp, hpairs,
          skipWs_cons_not_ws (show isWsChar ',' = false from by decide)]

/-- Top-level textual round trip: parsing any rendered value recovers it. -/
lemma json_loads_renderJ (w : AVal) : json_loads (renderJ 0 w) = some (w, []) := by
  have h := (parseJ_roundtrip ((renderJ 0 w).length + 1)).1 w 0 []
    (by omega) trivial
  rw [List.append_nil] at h
  exact h

/-! ### Map equality up to key insertion order -/

mutual
/-- Structural equality of values, except that the entries of each map
may appear in any order (at every nesting level). This is how two
Python dicts built by inserting the same keys in different orders
compare equal. -/
def PermEquiv : AVal → AVal → Prop
  | .null, .null => True
  | .boolean a, .boolean b => a = b
  | .int a, .int b => a = b
  | .str a, .str b => a = b
  | .arr xs, .arr ys => PermEquivList xs ys
  | .map kvs, .map kvs' => ∃ mid, kvs.Perm mid ∧ PermEquivPairs mid kvs'
  | _, _ => False
termination_by v w => sizeOf w

/-- Pointwise `PermEquiv` on lists. -/
def PermEquivList : List AVal → List AVal → Prop
  | [], [] => True
  | v :: vs, w :: ws => PermEquiv v w ∧ PermEquivList vs ws
  | _, _ => False
termination_by vs ws => sizeOf ws

/-- Pointwise key equality and value `PermEquiv` on entry lists. -/
def PermEquivPairs : List (String × AVal) → List (String × AVal) → Prop
  | [], [] => True
  | (k, v) :: ps, (k', w) :: qs => k = k' ∧ PermEquiv v w ∧ PermEquivPairs ps qs
  | _, _ => False
termination_by ps qs => sizeOf qs
end

mutual
/-- Whether all maps inside a value have pairwise distinct keys (as the
dicts handed to `write_arm` always do). -/
def NK : AVal → Prop
  | .arr xs => NKList xs
  | .map kvs => (kvs.map Prod.fst).Nodup ∧ NKPairs kvs
  | _ => True

/-- Apply `NK` to each element. -/
def NKList : List AVal → Prop
  | [] => True
  | v :: vs => NK v ∧ NKList vs

/-- Apply `NK` to each entry value. -/
def NKPairs : List (String × AVal) → Prop
  | [] => True
  | (_, v) :: kvs => NK v ∧ NKPairs kvs
end

lemma NKPairs_iff (l : List (String × AVal)) :
    NKPairs l ↔ ∀ p ∈ l, NK p.2 := by
  induction l with
  | nil => simp [NKPairs]
  | cons p ps ih =>
    obtain ⟨k, v⟩ := p
    simp [NKPairs, ih]

mutual
theorem canon_permEquiv (v : AVal) : PermEquiv (canon v) v := by
  cases v with
  | null => simp [canon, PermEquiv]
  | boolean b => simp [canon, PermEquiv]
  | int n => simp [canon, PermEquiv]
  | str s => simp [canon, PermEquiv]
  | arr xs =>
    rw [show canon (.arr xs) = .arr (canonList xs) from by simp [canon]]
    rw [show PermEquiv (.arr (canonList xs)) (.arr xs) =
      PermEquivList (canonList xs) xs from by simp [PermEquiv]]
    exact canonList_permEquiv xs
  | map kvs =>
    rw [show canon (.map kvs) =
      .map (List.insertionSort keyLE (canonPairs kvs)) from by simp [canon]]
    rw [show PermEquiv (.map (List.insertionSort keyLE (canonPairs kvs)))
      (.map kvs) = ∃ mid, (List.insertionSort keyLE (canonPairs kvs)).Perm mid ∧
        PermEquivPairs mid kvs from by simp [PermEquiv]]
    exact ⟨canonPairs kvs, List.perm_insertionSort _ _,
      canonPairs_permEquiv kvs⟩
termination_by sizeOf v

theorem canonList_permEquiv (xs : List AVal) :
    PermEquivList (canonList xs) xs := by
  cases xs with
  | nil => simp [canonList, PermEquivList]
  | cons v vs =>
    rw [show canonList (v :: vs) = canon v :: canonList vs from
      by simp [canonList]]
    rw [show PermEquivList (canon v :: canonList vs) (v :: vs) =
      (PermEquiv (canon v) v ∧ PermEquivList (canonList vs) vs) from
      by simp [PermEquivList]]
    exact ⟨canon_permEquiv v, canonList_permEquiv vs⟩
termination_by sizeOf xs

theorem canonPairs_permEquiv (kvs : List (String × AVal)) :
    PermEquivPairs (canonPairs kvs) kvs := by
  cases kvs with
  | nil => simp [canonPairs, PermEquivPairs]
  | cons p ps =>
    obtain ⟨k, v⟩ := p
    rw [show canonPairs ((k, v) :: ps) = (k, canon v) :: canonPairs ps from
      by simp [canonPairs]]
    rw [show PermEquivPairs ((k, canon v) :: canonPairs ps) ((k, v) :: ps) =
      (k = k ∧ PermEquiv (canon v) v ∧ PermEquivPairs (canonPairs ps) ps) from
      by simp [PermEquivPairs]]
    exact ⟨rfl, canon_permEquiv v, canonPairs_permEquiv ps⟩
termination_by sizeOf kvs
end

lemma canonPairs_eq_map (l : List (String × AVal)) :
    canonPairs l = l.map (fun p => (p.1, canon p.2)) := by
  induction l with
  | nil => simp [canonPairs]
  | cons p ps ih =>
    obtain ⟨k, v⟩ := p
    simp [canonPairs, ih]

lemma canonPairs_keys (l : List (String × AVal)) :
    (canonPairs l).map Prod.fst = l.map Prod.fst := by
  rw [canonPairs_eq_map, List.map_map]
  rfl

lemma sorted_strict_of_sorted_nodup {m : List (String × AVal)}
    (hs : List.Sorted keyLE m) (hnd : (m.map Prod.fst).Nodup) :
    List.Sorted (fun a b : String × AVal => a.1 < b.1 ∨ a = b) m := by
  have hne : List.Pairwise (fun a b : String × AVal => a.1 ≠ b.1) m :=
    List.pairwise_map.mp hnd
  exact (hs.and hne).imp (fun h => Or.inl (lt_of_le_of_ne h.1 h.2))

lemma insertionSort_eq_of_perm {l l' : List (String × AVal)}
    (hp : l.Perm l') (hnd : (l.map Prod.fst).Nodup) :
    List.insertionSort keyLE l = List.insertionSort keyLE l' := by
  haveI : IsAntisymm (String × AVal)
      (fun a b : String × AVal => a.1 < b.1 ∨ a = b) := ⟨by
    intro a b hab hba
    rcases hab with h | h
    · rcases hba with h2 | h2
      · exact absurd (lt_trans h h2) (lt_irrefl _)
      · exact h2.symm
    · exact h⟩
  have hnd' : (l'.map Prod.fst).Nodup := ((hp.map Prod.fst).nodup_iff).mp hnd
  have hnds : ((List.insertionSort keyLE l).map Prod.fst).Nodup :=
    (((List.perm_insertionSort keyLE l).map Prod.fst).nodup_iff).mpr hnd
  have hnds' : ((List.insertionSort keyLE l').map Prod.fst).Nodup :=
    (((List.perm_insertionSort keyLE l').map Prod.fst).nodup_iff).mpr hnd'
  have hper : (List.insertionSort keyLE l).Perm (List.insertionSort keyLE l') :=
    (List.perm_insertionSort _ l).trans
      (hp.trans (List.perm_insertionSort _ l').symm)
  exact List.eq_of_perm_of_sorted hper
    (sorted_strict_of_sorted_nodup (List.sorted_insertionSort keyLE l) hnds)
    (sorted_strict_of_sorted_nodup (List.sorted_insertionSort keyLE l') hnds')

lemma NKPairs_of_perm {l l' : List (String × AVal)} (hp : l.Perm l')
    (h : NKPairs l) : NKPairs l' := by
  rw [NKPairs_iff] at h ⊢
  intro p hm
  exact h p (hp.symm.subset hm)

lemma canon_congr_all :
    ∀ N : ℕ,
      (∀ v w : AVal, sizeOf w ≤ N → PermEquiv v w → NK v → NK w →
        canon v = canon w) ∧
      (∀ xs ys : List AVal, sizeOf ys ≤ N → PermEquivList xs ys →
        NKList xs → NKList ys → canonList xs = canonList ys) ∧
      (∀ ps qs : List (String × AVal), sizeOf qs ≤ N → PermEquivPairs ps qs →
        NKPairs ps → NKPairs qs → canonPairs ps = canonPairs qs) := by
  intro N
  induction N with
  | zero =>
    refine ⟨?_, ?_, ?_⟩
    · intro v w hsz
      have : 1 ≤ sizeOf w := by cases w <;> simp_arith
      omega
    · intro xs ys hsz
      have : 1 ≤ sizeOf ys := by cases ys <;> simp_arith
      omega
    · intro ps qs hsz
      have : 1 ≤ sizeOf qs := by cases qs <;> simp_arith
      omega
  | succ N ih =>
    obtain ⟨ihV, ihL, ihP⟩ := ih
    refine ⟨?_, ?_, ?_⟩
    · intro v w hsz h hv hw
      cases v with
      | null => cases w <;> simp_all [PermEquiv]
      | boolean a => cases w <;> simp_all [PermEquiv, canon]
      | int a => cases w <;> simp_all [PermEquiv, canon]
      | str a => cases w <;> simp_all [PermEquiv, canon]
      | arr xs =>
        cases w with
        | arr ys =>
          have hszy : sizeOf ys ≤ N := by
            simp only [AVal.arr.sizeOf_spec] at hsz
            omega
          have hl : PermEquivList xs ys := by
            rw [show PermEquiv (.arr xs) (.arr ys) = PermEquivList xs ys from
              by simp [PermEquiv]] at h
            exact h
          have hvx : NKList xs := by
            rw [show NK (.arr xs) = NKList xs from by simp [NK]] at hv
            exact hv
          have hwy : NKList ys := by
            rw [show NK (.arr ys) = NKList ys from by simp [NK]] at hw
            exact hw
          rw [show canon (.arr xs) = .arr (canonList xs) from by simp [canon],
            show canon (.arr ys) = .arr (canonList ys) from by simp [canon],
            ihL xs ys hszy hl hvx hwy]
        | null => exact absurd h (by simp [PermEquiv])
        | boolean b => exact absurd h (by simp [PermEquiv])
        | int n => exact absurd h (by simp [PermEquiv])
        | str s => exact absurd h (by simp [PermEquiv])
        | map kvs => exact absurd h (by simp [PermEquiv])
      | map kvs =>
        cases w with
        | map kvs' =>
          have hszk : sizeOf kvs' ≤ N := by
            simp only [AVal.map.sizeOf_spec] at hsz
            omega
          have hm : ∃ mid, kvs.Perm mid ∧ PermEquivPairs mid kvs' := by
            rw [show PermEquiv (.map kvs) (.map kvs') =
              ∃ mid, kvs.Perm mid ∧ PermEquivPairs mid kvs' from
              by simp [PermEquiv]] at h
            exact h
          obtain ⟨mid, hperm, hpe⟩ := hm
          have hvk : (kvs.map Prod.fst).Nodup ∧ NKPairs kvs := by
            rw [show NK (.map kvs) =
              ((kvs.map Prod.fst).Nodup ∧ NKPairs kvs) from by simp [NK]] at hv
            exact hv
          have hwk : (kvs'.map Prod.fst).Nodup ∧ NKPairs kvs' := by
            rw [show NK (.map kvs') =
              ((kvs'.map Prod.fst).Nodup ∧ NKPairs kvs') from by simp [NK]] at hw
            exact hw
          have hmidNK : NKPairs mid := NKPairs_of_perm hperm hvk.2
          have hcp : canonPairs mid = canonPairs kvs' :=
            ihP mid kvs' hszk hpe hmidNK hwk.2
          have hperm2 : (canonPairs kvs).Perm (canonPairs kvs') := by
            rw [← hcp, canonPairs_eq_map, canonPairs_eq_map]
            exact hperm.map _
          have hndc : ((canonPairs kvs).map Prod.fst).Nodup := by
            rw [canonPairs_keys]
            exact hvk.1
          rw [show canon (.map kvs) =
            .map (List.insertionSort keyLE (canonPairs kvs)) from
            by simp [canon],
            show canon (.map kvs') =
            .map (List.insertionSort keyLE (canonPairs kvs')) from
            by simp [canon],
            insertionSort_eq_of_perm hperm2 hndc]
        | null => exact absurd h (by simp [PermEquiv])
        | boolean b => exact absurd h (by simp [PermEquiv])
        | int n => exact absurd h (by simp [PermEquiv])
        | str s => exact absurd h (by simp [PermEquiv])
        | arr xs => exact absurd h (by simp [PermEquiv])
    · intro xs ys hsz h hx hy
      cases xs with
      | nil =>
        cases ys with
        | nil => rfl
        | cons w ws => exact absurd h (by simp [PermEquivList])
      | cons v vs =>
        cases ys with
        | nil => exact absurd h (by simp [PermEquivList])
        | cons w ws =>
          have hszw : sizeOf w ≤ N ∧ sizeOf ws ≤ N := by
            simp only [List.cons.sizeOf_spec] at hsz
            constructor <;> omega
          have h2 : PermEquiv v w ∧ PermEquivList vs ws := by
            rw [show PermEquivList (v :: vs) (w :: ws) =
              (PermEquiv v w ∧ PermEquivList vs ws) from
              by simp [PermEquivList]] at h
            exact h
          have hx2 : NK v ∧ NKList vs := by
            rw [show NKList (v :: vs) = (NK v ∧ NKList vs) from
              by simp [NKList]] at hx
            exact hx
          have hy2 : NK w ∧ NKList ws := by
            rw [show NKList (w :: ws) = (NK w ∧ NKList ws) from
              by simp [NKList]] at hy
            exact hy
          rw [show canonList (v :: vs) = canon v :: canonList vs from
            by simp [canonList],
            show canonList (w :: ws) = canon w :: canonList ws from
            by simp [canonList],
            ihV v w hszw.1 h2.1 hx2.1 hy2.1,
            ihL vs ws hszw.2 h2.2 hx2.2 hy2.2]
    · intro ps qs hsz h hp hq
      cases ps with
      | nil =>
        cases qs with
        | nil => rfl
        | cons q qs' =>
          obtain ⟨k', w⟩ := q
          exact absurd h (by simp [PermEquivPairs])
      | cons p ps' =>
        obtain ⟨k, v⟩ := p
        cases qs with
        | nil => exact absurd h (by simp [PermEquivPairs])
        | cons q qs' =>
          obtain ⟨k', w⟩ := q
          have hszw : sizeOf w ≤ N ∧ sizeOf qs' ≤ N := by
            simp only [List.cons.sizeOf_spec, Prod.mk.sizeOf_spec] at hsz
            constructor <;> omega
          have h2 : k = k' ∧ PermEquiv v w ∧ PermEquivPairs ps' qs' := by
            rw [show PermEquivPairs ((k, v) :: ps') ((k', w) :: qs') =
              (k = k' ∧ PermEquiv v w ∧ PermEquivPairs ps' qs') from
              by simp [PermEquivPairs]] at h
            exact h
          have hp2 : NK v ∧ NKPairs ps' := by
            rw [show NKPairs ((k, v) :: ps') = (NK v ∧ NKPairs ps') from
              by simp [NKPairs]] at hp
            exact hp
          have hq2 : NK w ∧ NKPairs qs' := by
            rw [show NKPairs ((k', w) :: qs') = (NK w ∧ NKPairs qs') from
              by simp [NKPairs]] at hq
            exact hq
          rw [show canonPairs ((k, v) :: ps') =
            (k, canon v) :: canonPairs ps' from by simp [canonPairs],
            show canonPairs ((k', w) :: qs') =
            (k', canon w) :: canonPairs qs' from by simp [canonPairs],
            h2.1, ihV v w hszw.1 h2.2.1 hp2.1 hq2.1,
            ihP ps' qs' hszw.2 h2.2.2 hp2.2 hq2.2]

/-- Lemma: `canon` identifies values that are equal as maps (up to key insertion
order, recursively), provided all keys are distinct. -/
lemma canon_congr {v w : AVal} (h : PermEquiv v w) (hv : NK v) (hw : NK w) :
    canon v = canon w :=
  (canon_congr_all (sizeOf w)).1 v w le_rfl h hv hw

/-! ### `write_arm` itself -/

/-- What gets written: raw bytes (binary mode, `open(filepath, 'wb')` or
`writestr` with a bytes payload) or text (`open(filepath, 'w')` or
`writestr` with a str payload). -/
inductive Payload where
  | bin : List ℕ → Payload
  | text : List Char → Payload
deriving DecidableEq

/-- The observable effect of `write_arm`: either a zip archive (with its
compression mode and entries) or a plain file. -/
inductive WriteResult where
  | zipArchive : Bool → List (String × Payload) → WriteResult
  | file : Payload → WriteResult
deriving DecidableEq

/-- Source `write_arm(filepath, output)`; `arm_minimize` is the external
configuration flag `bpy.data.worlds['Arm'].arm_minimize`. The `Bool` on
`zipArchive` records `zipfile.ZIP_DEFLATED`. -/
def write_arm (arm_minimize : Bool) (filepath : String) (output : AVal) :
    WriteResult :=
  if filepath.endsWith ".zip" then
    if arm_minimize then
      .zipArchive true [("data.arm", .bin (dumpsB output))]
    else
      .zipArchive true [("data.arm", .text (json_dumps output))]
  else
    if arm_minimize then .file (.bin (dumpsB output))
    else .file (.text (json_dumps output))

/-- The encoding `write_arm` selects for a given flag value. -/
def encodedPayload (arm_minimize : Bool) (output : AVal) : Payload :=
  if arm_minimize then .bin (dumpsB output) else .text (json_dumps output)

/-- The payload actually written, regardless of container. -/
def writtenPayload : WriteResult → Payload
  | .zipArchive _ entries => ((entries.head?).map Prod.snd).getD (.bin [])
  | .file p => p

/-- C3: `write_arm` writes the compact binary encoding exactly when
`arm_minimize` is set and the pretty-printed textual encoding otherwise,
inside a deflate-compressed zip archive as the single entry `data.arm`
exactly when the target path ends with `.zip`, directly to the file
otherwise. -/
theorem write_arm_encoding_selection (arm_minimize : Bool) (fp : String)
    (out : AVal) :
    write_arm arm_minimize fp out =
      (if fp.endsWith ".zip" = true
       then WriteResult.zipArchive true
         [("data.arm", encodedPayload arm_minimize out)]
       else WriteResult.file (encodedPayload arm_minimize out)) ∧
    encodedPayload true out = .bin (dumpsB out) ∧
    encodedPayload false out = .text (json_dumps out) := by
  refine ⟨?_, rfl, rfl⟩
  cases hz : fp.endsWith ".zip" <;> cases arm_minimize <;>
    simp [write_arm, encodedPayload, hz]

/-- C4: writing a nested mapping with `write_arm` under either encoding
and decoding the written payload with the corresponding decoder yields
the original mapping: exactly for the binary form, and up to key
insertion order (the decoded value is the key-sorted canonical form,
which is `PermEquiv` to the original) for the textual form. -/
theorem serialization_roundtrip (fp : String) (v : AVal) :
    writtenPayload (write_arm true fp v) = Payload.bin (dumpsB v) ∧
    loadsB (dumpsB v) = some (v, []) ∧
    writtenPayload (write_arm false fp v) = Payload.text (json_dumps v) ∧
    json_loads (json_dumps v) = some (canon v, []) ∧
    PermEquiv (canon v) v := by
  refine ⟨?_, loadsB_dumpsB v, ?_, ?_, canon_permEquiv v⟩
  · cases hz : fp.endsWith ".zip" <;> simp [write_arm, writtenPayload, hz]
  · cases hz : fp.endsWith ".zip" <;> simp [write_arm, writtenPayload, hz]
  · rw [json_dumps]
    exact json_loads_renderJ (canon v)

/-- C7: the textual encoding is a deterministic function of the mapping's
contents: two nested mappings with distinct keys that are equal as maps
(key insertion order apart, at every nesting level) produce byte-for-byte
identical textual encodings. -/
theorem textual_encoding_deterministic (v w : AVal) (hv : NK v) (hw : NK w)
    (h : PermEquiv v w) : json_dumps v = json_dumps w := by
  rw [json_dumps, json_dumps, canon_congr h hv hw]

/-- Witness for C7: the two-key map `{"b": 1, "a": null}` built in either
insertion order serializes identically. -/
theorem textual_encoding_deterministic_witness :
    json_dumps (.map [("b", .int 1), ("a", .null)]) =
      json_dumps (.map [("a", .null), ("b", .int 1)]) := by
  refine textual_encoding_deterministic _ _ ?_ ?_ ?_
  · rw [show NK (.map [("b", .int 1), ("a", .null)]) =
      (((["b", "a"] : List String).Nodup) ∧
        NKPairs [("b", .int 1), ("a", .null)]) from by simp [NK]]
    exact ⟨by decide, by simp [NKPairs, NK]⟩
  · rw [show NK (.map [("a", .null), ("b", .int 1)]) =
      (((["a", "b"] : List String).Nodup) ∧
        NKPairs [("a", .null), ("b", .int 1)]) from by simp [NK]]
    exact ⟨by decide, by simp [NKPairs, NK]⟩
  · rw [show PermEquiv (.map [("b", .int 1), ("a", .null)])
      (.map [("a", .null), ("b", .int 1)]) =
      ∃ mid, ([(("b" : String), AVal.int 1), ("a", .null)]).Perm mid ∧
        PermEquivPairs mid [("a", .null), ("b", .int 1)] from by simp [PermEquiv]]
    refine ⟨[("a", .null), ("b", .int 1)], List.Perm.swap _ _ _, ?_⟩
    simp [PermEquivPairs, PermEquiv]

/-! ## Process-wide chromium flag (`chromium_found`, `with_chromium`,
`register`, `unregister`)

Source:
```
chromium_found = False
def with_chromium():
    global chromium_found
    return chromium_found

def register():
    global chromium_found
    (imports importlib.util)
    if importlib.util.find_spec('barmory') != None:
        chromium_found = True

def unregister():
    pass
```
The module-level flag is the only global mutable state; it is modelled as
a `Bool`, and the module's public operations as a step function on it.
`register`'s parameter records whether `importlib.util.find_spec('barmory')`
found the optional bundled component.
-/

/-- The public operations of the module, as far as the process-wide flag
is concerned. `register`'s argument is whether `'barmory'` was found. -/
inductive ArmOp where
  | write_arm_op
  | get_fp_op
  | get_os_op
  | get_sdk_path_op
  | get_ffmpeg_path_op
  | fetch_script_names_op
  | to_hex_op
  | color_to_int_op
  | safe_filename_op
  | safe_assetpath_op
  | extract_filename_op
  | get_render_resolution_op
  | get_project_scene_name_op
  | with_chromium_op
  | register (barmoryFound : Bool)
  | unregister
deriving DecidableEq

/-- Value of the flag at module load. -/
def chromiumInit : Bool := false

/-- Effect of each operation on the flag: only `register` assigns it, and
only to `true`, and only when `'barmory'` was found. -/
def chromiumStep : ArmOp → Bool → Bool
  | .register found, flag => if found then true else flag
  | _, flag => flag

/-- Source `with_chromium()`: reads the flag. -/
def with_chromium (flag : Bool) : Bool := flag

/-- Flag after running a sequence of operations from module load. -/
def runOps (ops : List ArmOp) : Bool :=
  ops.foldl (fun flag op => chromiumStep op flag) chromiumInit

/-- Whether an operation is `register`. -/
def isRegisterOp : ArmOp → Bool
  | .register _ => true
  | _ => false

lemma runOps_no_register :
    ∀ (ops : List ArmOp) (flag : Bool), (∀ op ∈ ops, isRegisterOp op = false) →
      ops.foldl (fun f op => chromiumStep op f) flag = flag := by
  intro ops
  induction ops with
  | nil => intro flag _; rfl
  | cons op rest ih =>
    intro flag h
    have hop : isRegisterOp op = false := h op (by simp)
    have hstep : chromiumStep op flag = flag := by
      cases op <;> simp_all [chromiumStep, isRegisterOp]
    rw [List.foldl_cons, hstep]
    exact ih flag (fun o ho => h o (by simp [ho]))

/-- C8: the flag is `false` in every state reachable without `register`;
`register` sets it to `true` exactly when `'barmory'` is found and never
resets it; no other operation modifies it. -/
theorem chromium_flag_invariant :
    (∀ ops : List ArmOp, (∀ op ∈ ops, isRegisterOp op = false) →
      with_chromium (runOps ops) = false) ∧
    (∀ (found flag : Bool),
      chromiumStep (.register found) flag = (found || flag)) ∧
    (∀ (op : ArmOp) (flag : Bool), flag = true → chromiumStep op flag = true) ∧
    (∀ (op : ArmOp) (flag : Bool), isRegisterOp op = false →
      chromiumStep op flag = flag) := by
  refine ⟨?_, ?_, ?_, ?_⟩
  · intro ops h
    exact runOps_no_register ops chromiumInit h
  · intro found flag
    cases found <;> simp [chromiumStep]
  · intro op flag h
    subst h
    cases op <;> simp [chromiumStep]
  · intro op flag h
    cases op <;> simp_all [chromiumStep, isRegisterOp]

/-- Witness for C8 on a concrete run: reads and `unregister` leave the
flag `false`; a successful `register` turns it on; a later failing
`register` does not turn it off. -/
theorem chromium_flag_invariant_witness :
    with_chromium (runOps [ArmOp.with_chromium_op, ArmOp.unregister]) = false ∧
    chromiumStep (.register true) false = (true || false) ∧
    chromiumStep ArmOp.unregister true = true ∧
    chromiumStep ArmOp.get_os_op false = false :=
  ⟨chromium_flag_invariant.1 [ArmOp.with_chromium_op, ArmOp.unregister] (by decide),
   chromium_flag_invariant.2.1 true false,
   chromium_flag_invariant.2.2.1 ArmOp.unregister true rfl,
   chromium_flag_invariant.2.2.2 ArmOp.get_os_op false (by decide)⟩

/-! ## Host-state model for `get_fp`, `get_os`, `get_sdk_path`,
`fetch_script_names`

Source:
```
def get_fp():
    s = bpy.data.filepath.split(os.path.sep)
    s.pop()
    return os.path.sep.join(s)

def get_os():
    s = platform.system()
    if s == 'Windows':
        return 'win'
    elif s == 'Darwin':
        return 'mac'
    else:
        return 'linux'

def get_sdk_path():
    user_preferences = bpy.context.user_preferences
    addon_prefs = user_preferences.addons['armory'].preferences
    if with_chromium() and addon_prefs.sdk_bundled:
        if get_os() == 'mac':
            return bpy.app.binary_path[:-34] + '/armsdk/'
        elif get_os() == 'linux':
            return bpy.app.binary_path[:-7] + '/armsdk/'
        else:
            return bpy.app.binary_path[:-11] + '/armsdk/'
    else:
        return addon_prefs.sdk_path

def fetch_script_names():
    if bpy.data.filepath == "":
        return
    sdk_path = get_sdk_path()
    wrd = bpy.data.worlds['Arm']
    wrd.bundled_scripts_list.clear()
    os.chdir(sdk_path + '/armory/Sources/armory/trait')
    for file in glob.glob('*.hx'):
        wrd.bundled_scripts_list.add().name = file.rsplit('.')[0]
    wrd.scripts_list.clear()
    sources_path = get_fp() + '/Sources/' + wrd.arm_project_package
    if os.path.isdir(sources_path):
        os.chdir(sources_path)
        for file in glob.glob('*.hx'):
            wrd.scripts_list.add().name = file.rsplit('.')[0]
    os.chdir(get_fp())
```
Host collaborators (preferences, platform, binary path, path separator,
filesystem) are modelled as explicit records; `glob.glob('*.hx')` in the
current directory is modelled as a function from the directory to the
matching file names.
-/

/-- Addon preferences consumed by the module. -/
structure Prefs where
  sdk_bundled : Bool
  sdk_path : String
  ffmpeg_path : String

/-- Immutable host environment consumed by the module. -/
structure HostEnv where
  prefs : Prefs
  chromium_flag : Bool
  platform_system : String
  binary_path : String
  path_sep : String

/-- Mutable host state touched by `fetch_script_names`. -/
structure HostState where
  filepath : String
  cwd : String
  arm_project_package : String
  bundled_scripts_list : List String
  scripts_list : List String
deriving DecidableEq

/-- Python slice `s[:-n]`: drop the last `n` characters. -/
def pySliceDropLast (s : String) (n : ℕ) : String :=
  ⟨s.data.take (s.data.length - n)⟩

/-- Source `get_os()`. -/
def get_os (system : String) : String :=
  if system = "Windows" then "win"
  else if system = "Darwin" then "mac"
  else "linux"

/-- Source `get_sdk_path()`. -/
def get_sdk_path (env : HostEnv) : String :=
  if with_chromium env.chromium_flag && env.prefs.sdk_bundled then
    if get_os env.platform_system = "mac" then
      pySliceDropLast env.binary_path 34 ++ "/armsdk/"
    else if get_os env.platform_system = "linux" then
      pySliceDropLast env.binary_path 7 ++ "/armsdk/"
    else
      pySliceDropLast env.binary_path 11 ++ "/armsdk/"
  else env.prefs.sdk_path

/-- Source `get_fp()`: the host file path with its last separator component
removed. -/
def get_fp (sep : String) (filepath : String) : String :=
  String.intercalate sep ((filepath.splitOn sep).dropLast)

/-- Python `file.rsplit('.')[0]`: the part before the first `'.'`. -/
def pyStem (s : String) : String := ⟨s.data.takeWhile (fun c => c != '.')⟩

/-- The filesystem as seen by `fetch_script_names`: the `'*.hx'` matches
in a directory, and directory existence. -/
structure FileSys where
  globHx : String → List String
  isdir : String → Bool

/-- Source `fetch_script_names()`. -/
def fetch_script_names (fs : FileSys) (env : HostEnv) (s : HostState) :
    HostState :=
  if s.filepath = "" then s
  else
    let sdk_path := get_sdk_path env
    let traitDir := sdk_path ++ "/armory/Sources/armory/trait"
    let bundled := (fs.globHx traitDir).map pyStem
    let fp := get_fp env.path_sep s.filepath
    let sources_path := fp ++ "/Sources/" ++ s.arm_project_package
    let scripts :=
      if fs.isdir sources_path then (fs.globHx sources_path).map pyStem else []
    { s with
      bundled_scripts_list := bundled
      scripts_list := scripts
      cwd := fp }

/-- C9: when the host file path is empty, `fetch_script_names` returns
immediately and leaves the whole host state (both script lists and the
working directory) unchanged. -/
theorem fetch_script_names_noop (fs : FileSys) (env : HostEnv)
    (s : HostState) (h : s.filepath = "") :
    fetch_script_names fs env s = s := by
  rw [fetch_script_names, if_pos h]

/-- Witness for C9 at a concrete empty-filepath state. -/
theorem fetch_script_names_noop_witness :
    fetch_script_names ⟨fun _ => ["A.hx"], fun _ => true⟩
      ⟨⟨true, "sdk", "ffmpeg"⟩, false, "Linux", "/usr/bin/blender", "/"⟩
      ⟨"", "/home", "arm", ["old"], ["old2"]⟩ =
      ⟨"", "/home", "arm", ["old"], ["old2"]⟩ :=
  fetch_script_names_noop _ _ _ rfl

end Armutils
